import Mathlib

/-!
Verification development for the core dispatch engine of the passl last-mile
delivery platform: order lifecycle queue (`orders/queue.py`), batching engine
(`orders/batching/*.py`), wave dispatcher (`dispatch/dispatcher.py`) and
driver-wave selection (`drivers/selection.py`), shallowly embedded in Lean.

Conventions of the embedding:
* Python floats (travel times, ages, coordinates) are modelled as `ℚ`.
* Arithmetic on `ℚ` is expressed through the helpers `qAdd`, `qSub`, `qMul`,
  `qDiv` below, which are defined via `Rat.divInt` so that concrete runs of
  the embedded code reduce inside the kernel; each helper is proved equal to
  the corresponding field operation on `ℚ`.
* Python `dict`s are embedded as insertion-ordered association lists with the
  update-in-place / append-if-new semantics of CPython dicts.
* A Python function that can raise an exception on some inputs is embedded
  with an `Option`/`Except` result; `none`/`.error` models the raised
  exception escaping the call.
-/

/-! ## Rational arithmetic helpers

`Rat.add`, `Rat.mul`, `Rat.inv` are irreducible in the library, so the
embedded code uses these `Rat.divInt`-based equivalents, which the kernel can
evaluate on concrete inputs. Each is proved equal to the field operation. -/

/-- Addition on `ℚ`, written so that it reduces on concrete rationals. -/
def qAdd (a b : ℚ) : ℚ := Rat.divInt (a.num * b.den + b.num * a.den) (a.den * b.den)

/-- Subtraction on `ℚ`, written so that it reduces on concrete rationals. -/
def qSub (a b : ℚ) : ℚ := Rat.divInt (a.num * b.den - b.num * a.den) (a.den * b.den)

/-- Multiplication on `ℚ`, written so that it reduces on concrete rationals. -/
def qMul (a b : ℚ) : ℚ := Rat.divInt (a.num * b.num) (a.den * b.den)

/-- Division on `ℚ` (Python `/` on floats), reducible on concrete rationals.
Like `Rat.div`, it sends division by zero to zero; the embedded code only
divides after a positivity guard, so this case is never exercised. -/
def qDiv (a b : ℚ) : ℚ := Rat.divInt (a.num * b.den) (a.den * b.num)

/-- Boolean `≤` on `ℚ` (reduces on concrete rationals). -/
def qLe (a b : ℚ) : Bool := !Rat.blt b a

/-- Boolean `<` on `ℚ` (reduces on concrete rationals). -/
def qLt (a b : ℚ) : Bool := Rat.blt a b

theorem qAdd_eq (a b : ℚ) : qAdd a b = a + b := by
  rw [qAdd, ← Rat.num_divInt_den a, ← Rat.num_divInt_den b, Rat.divInt_add_divInt]
  · rw [Rat.num_divInt_den a, Rat.num_divInt_den b]
  · exact_mod_cast a.den_nz
  · exact_mod_cast b.den_nz

theorem qSub_eq (a b : ℚ) : qSub a b = a - b := by
  rw [qSub, ← Rat.num_divInt_den a, ← Rat.num_divInt_den b, Rat.divInt_sub_divInt]
  · rw [Rat.num_divInt_den a, Rat.num_divInt_den b]
  · exact_mod_cast a.den_nz
  · exact_mod_cast b.den_nz

theorem qMul_eq (a b : ℚ) : qMul a b = a * b := by
  rw [qMul, ← Rat.num_divInt_den a, ← Rat.num_divInt_den b, Rat.divInt_mul_divInt]
  · rw [Rat.num_divInt_den a, Rat.num_divInt_den b]
  · exact_mod_cast a.den_nz
  · exact_mod_cast b.den_nz

theorem qDiv_eq (a b : ℚ) : qDiv a b = a / b := by
  rcases eq_or_ne b.num 0 with h | h
  · rw [Rat.zero_of_num_zero h]
    simp [qDiv, div_zero]
  · have hinv : b⁻¹ = Rat.divInt b.den b.num := by
      show b.inv = _
      rw [Rat.inv_def]
    rw [qDiv, div_eq_mul_inv, hinv]
    conv_rhs => rw [← Rat.num_divInt_den a]
    rw [Rat.divInt_mul_divInt _ _ (by exact_mod_cast a.den_nz) h]

theorem qLe_iff (a b : ℚ) : qLe a b = true ↔ a ≤ b := by
  show (!Rat.blt b a) = true ↔ a ≤ b
  rw [Bool.not_eq_true']
  exact Iff.rfl

theorem qLt_iff (a b : ℚ) : qLt a b = true ↔ a < b := Iff.rfl

/-! ## Python dict and sorting helpers -/

/-- CPython dict assignment `m[k] = v`: update in place if the key is
present, append otherwise (insertion order is preserved). -/
def pyInsert [DecidableEq κ] (m : List (κ × α)) (k : κ) (v : α) : List (κ × α) :=
  match m with
  | [] => [(k, v)]
  | (k', v') :: rest =>
      if k' = k then (k, v) :: rest else (k', v') :: pyInsert rest k v

/-- CPython dict lookup `m.get(k)` / `m[k]`. -/
def pyGet? [DecidableEq κ] (m : List (κ × α)) (k : κ) : Option α :=
  match m with
  | [] => none
  | (k', v) :: rest => if k' = k then some v else pyGet? rest k

/-- Python `dict.setdefault(k, []).append(v)` on a dict of lists. -/
def pyAppendAt [DecidableEq κ] (m : List (κ × List α)) (k : κ) (v : α) :
    List (κ × List α) :=
  match m with
  | [] => [(k, [v])]
  | (k', vs) :: rest =>
      if k' = k then (k, vs ++ [v]) :: rest else (k', vs) :: pyAppendAt rest k v

/-- Python string `<` (lexicographic comparison by code point). -/
def strLt (a b : String) : Bool :=
  go a.data b.data
where
  go : List Char → List Char → Bool
    | [], [] => false
    | [], _ :: _ => true
    | _ :: _, [] => false
    | c :: cs, d :: ds =>
        if c.val < d.val then true
        else if d.val < c.val then false
        else go cs ds

/-- Python `sorted((x, y))` on a pair of strings. -/
def pySortPair (x y : String) : List String :=
  if strLt y x then [y, x] else [x, y]

/-- Inserts `x` in front of the first element `y` with `le x y` — the
insertion step of a stable insertion sort. -/
def insertSorted (le : α → α → Bool) (x : α) : List α → List α
  | [] => [x]
  | y :: ys => if le x y then x :: y :: ys else y :: insertSorted le x ys

/-- Python's stable `list.sort` / `sorted` for a total boolean preorder
`le` (ascending; for `reverse=True` pass the flipped key comparison, which
is what CPython's reverse option amounts to for a stable sort).  A stable
sort's output is unique, so this insertion sort and CPython's timsort
agree. -/
def pySorted (le : α → α → Bool) : List α → List α
  | [] => []
  | x :: xs => insertSorted le x (pySorted le xs)

theorem insertSorted_perm (le : α → α → Bool) (x : α) (l : List α) :
    List.Perm (insertSorted le x l) (x :: l) := by
  induction l with
  | nil => exact List.Perm.refl _
  | cons y ys ih =>
      rw [insertSorted]
      by_cases h : le x y = true
      · rw [if_pos h]
      · rw [if_neg h]
        exact ((ih.cons y).trans (List.Perm.swap x y ys))

theorem pySorted_perm (le : α → α → Bool) (l : List α) :
    List.Perm (pySorted le l) l := by
  induction l with
  | nil => exact List.Perm.refl _
  | cons x xs ih =>
      rw [pySorted]
      exact (insertSorted_perm le x (pySorted le xs)).trans (ih.cons x)

theorem length_pySorted (le : α → α → Bool) (l : List α) :
    (pySorted le l).length = l.length :=
  (pySorted_perm le l).length_eq

theorem mem_pySorted (le : α → α → Bool) (x : α) (l : List α) :
    x ∈ pySorted le l ↔ x ∈ l :=
  (pySorted_perm le l).mem_iff

/-- Python `sorted(l)` on a list of strings. -/
def pySortStrings (l : List String) : List String :=
  pySorted (fun a b => !strLt b a) l

/-! ## Domain model

`orders/models.py` and `drivers/models.py`, with the field names used by
their callers (`orders/batching/*.py`, `drivers/selection.py`) — the model
file's spelling (`coordinates`, `pickup_coordinates`, `Latlon`) is stale with
respect to every use site, so the embedding follows the call sites.
Timestamps (`datetime`) are modelled as `ℚ` epoch seconds; `uuid4` job ids
are modelled as the constant `""` (no claim mentions a job id). -/

/-- A pair `(latitude, longitude)` in decimal degrees. -/
abbrev LatLon := ℚ × ℚ

inductive OrderStatus where
  | RAW | BATCHING | READY | ASSIGNED | CANCELLED
deriving DecidableEq, Repr

inductive JobType where
  | SINGLE | BATCH_2 | BATCH_3
deriving DecidableEq, Repr

inductive StopType where
  | PICKUP | DROPOFF
deriving DecidableEq, Repr

structure Order where
  id : String
  pickup : LatLon
  dropoff : LatLon
  pickup_id : Option String := none
  created_at : ℚ := 0
  ready_at : Option ℚ := none
  status : OrderStatus := .RAW
deriving DecidableEq, Repr

structure Stop where
  stop_type : StopType
  order_id : String
  coord : LatLon
  pickup_id : Option String := none
deriving DecidableEq, Repr

structure Job where
  job_id : String
  job_type : JobType
  order_ids : List String
  stops : List Stop
  eta : Option ℚ := none
  detour_factor : Option ℚ := none
  savings_percentage : Option ℚ := none
deriving DecidableEq, Repr

/-- Factory `Job.new` as its call sites in `orders/batching/scoring.py` use it
(the signature written in `orders/models.py` disagrees with every caller;
the call-site keyword form `Job.new(job_type=…, order_ids=…, stops=…)` is
embedded). The `uuid4` job id is modelled as `""`. -/
def Job.new (job_type : JobType) (order_ids : List String) (stops : List Stop) : Job :=
  { job_id := "", job_type := job_type, order_ids := order_ids, stops := stops }

inductive DriverStatus where
  | AVAILABLE | TRANSIT_TO_COLLECT | TRANSIT_TO_DROPOFF | PAUSED | OFFLINE | UNREGISTERED
deriving DecidableEq, Repr

structure Driver where
  id : String
  location : LatLon
  status : DriverStatus
  max_capacity : ℤ := 3
deriving DecidableEq, Repr

/-- A time-matrix provider: a function from a coordinate list to an N×N
duration matrix in seconds (`routing/matrix_adapter.py` contract). -/
abbrev TimeMatrixProvider := List LatLon → List (List ℚ)

/-! ## Wave dispatcher acceptance resolution (`dispatch/dispatcher.py`)

The lock-manager collaborator itself is not part of the repository (only the
dispatcher calls it); its state is modelled from the spec.  Per-job locking
means calls for one job are serialized, so the embedding is a sequential
state transformer. -/

/-- Modelled from the spec: the LockManager collaborator of §6.3
(`is_accepted`, `mark_accepted`, `set_active_offer`, `get_active_drivers`)
is absent from `src/`; its state is a job-id keyed acceptance record plus a
job-id keyed active offer (the driver ids currently holding the offer). -/
structure LockState where
  accepted : List (String × String) := []
  active_offer : List (String × List String) := []
deriving DecidableEq, Repr

/-- Modelled from the spec: LockManager `is_accepted(job_id)`. -/
def is_job_accepted (s : LockState) (job_id : String) : Bool :=
  (pyGet? s.accepted job_id).isSome

/-- Modelled from the spec: LockManager `mark_accepted(job_id, driver_id)`. -/
def mark_job_accepted (s : LockState) (job_id driver_id : String) : LockState :=
  { s with accepted := pyInsert s.accepted job_id driver_id }

/-- Modelled from the spec: LockManager `get_active_drivers(job_id)`. -/
def get_active_offer_drivers (s : LockState) (job_id : String) : List String :=
  (pyGet? s.active_offer job_id).getD []

/-- Embeds `Dispatcher.resolve_driver_acceptance` (dispatcher.py:74-98),
run under the per-job lock with a present lock manager.  Returns the
`accepted` flag and the updated lock state.  The loser revocation
notifications are a push-service side effect and carry no state. -/
def resolve_driver_acceptance (s : LockState) (job_id driver_id : String) :
    Bool × LockState :=
  if is_job_accepted s job_id then
    (false, s)
  else
    let s' := mark_job_accepted s job_id driver_id
    let active := get_active_offer_drivers s' job_id
    let _losers := active.filter (fun other => other ≠ driver_id)
    (true, s')

/-- A serialized sequence of `resolve_driver_acceptance` calls on one job:
the list of returned flags and the final state. -/
def run_resolve_calls (s : LockState) (job_id : String) :
    List String → List Bool × LockState
  | [] => ([], s)
  | d :: ds =>
      let (b, s') := resolve_driver_acceptance s job_id d
      let (bs, s'') := run_resolve_calls s' job_id ds
      (b :: bs, s'')

/-! ## Order lifecycle queue (`orders/queue.py`) -/

/-- In-memory order lifecycle state of `OrdersQueue`. -/
structure OrdersQueue where
  orders : List (String × Order) := []
  raw_ids : List String := []
  batching_ids : List String := []
  ready_jobs : List Job := []
  entered_raw_at : List (String × ℚ) := []
  entered_batching_at : List (String × ℚ) := []
deriving DecidableEq, Repr

/-- Deletion `m.pop(k, None)` on a Python dict. -/
def pyPopKey [DecidableEq κ] (m : List (κ × α)) (k : κ) : List (κ × α) :=
  match m with
  | [] => []
  | (k', v) :: rest => if k' = k then rest else (k', v) :: pyPopKey rest k

/-- Embeds `OrdersQueue.enqueue_raw` (queue.py:66-78); `now` stands for the
`datetime.utcnow()` call. -/
def enqueue_raw (q : OrdersQueue) (order : Order) (now : ℚ) : OrdersQueue :=
  if (pyGet? q.orders order.id).isSome then q
  else
    let order := { order with status := OrderStatus.RAW }
    { q with
      orders := pyInsert q.orders order.id order
      raw_ids := q.raw_ids ++ [order.id]
      entered_raw_at := pyInsert q.entered_raw_at order.id now }

/-- Loop body state for `move_raw_to_batching`: iterates the snapshot of
`_raw_ids`, threading the queue and the `moved` accumulator.  A raised
exception is `.error` (the NameError of queue.py:162 when
`ready_horizon_secs > 0` and the order has a known `ready_at`: the code
references the undefined name `ready_horizon_sec`). -/
def move_raw_go (now ready_horizon_secs : ℚ) (max_raw_age_sec : Option ℚ)
    (limit : Option ℤ) : List String → OrdersQueue → List Order →
    Except String (List Order × OrdersQueue)
  | [], q, moved => .ok (moved, q)
  | order_id :: rest, q, moved =>
      if limit.elim false (fun l => decide (l ≤ (moved.length : ℤ))) then
        .ok (moved, q)
      else
        match pyGet? q.orders order_id with
        | none => .error "AttributeError: NoneType has no attribute status"
        | some order =>
            if order.status ≠ OrderStatus.RAW then
              move_raw_go now ready_horizon_secs max_raw_age_sec limit rest
                { q with raw_ids := q.raw_ids.erase order_id } moved
            else
              let entered_raw_at := (pyGet? q.entered_raw_at order_id).getD now
              let raw_age_sec := qSub now entered_raw_at
              let force_by_age :=
                max_raw_age_sec.elim false (fun m => qLe m raw_age_sec)
              let ready_by_window : Except String Bool :=
                if qLt 0 ready_horizon_secs then
                  match order.ready_at with
                  | none => .ok true
                  | some _ => .error "NameError: name ready_horizon_sec is not defined"
                else .ok true
              match ready_by_window with
              | .error e => .error e
              | .ok ready_by_window =>
                  if force_by_age || ready_by_window then
                    let order := { order with status := OrderStatus.BATCHING }
                    move_raw_go now ready_horizon_secs max_raw_age_sec limit rest
                      { q with
                        raw_ids := q.raw_ids.erase order_id
                        batching_ids := q.batching_ids ++ [order_id]
                        orders := pyInsert q.orders order_id order
                        entered_batching_at :=
                          pyInsert q.entered_batching_at order_id now }
                      (moved ++ [order])
                  else
                    move_raw_go now ready_horizon_secs max_raw_age_sec limit rest q moved

/-- Embeds `OrdersQueue.move_raw_to_batching` (queue.py:116-171).  Returns
the moved orders and the updated queue, or the raised exception. -/
def move_raw_to_batching (q : OrdersQueue) (now : ℚ)
    (ready_horizon_secs : ℚ := 0) (max_raw_age_sec : Option ℚ := none)
    (limit : Option ℤ := none) : Except String (List Order × OrdersQueue) :=
  move_raw_go now ready_horizon_secs max_raw_age_sec limit q.raw_ids q []

/-- Embeds `OrdersQueue.evict_cancelled` (queue.py:208-227): marks the order
CANCELLED, removes it from the stage lists and timing dicts, and keeps the
record in `_orders`. -/
def evict_cancelled (q : OrdersQueue) (order_id : String) : OrdersQueue :=
  match pyGet? q.orders order_id with
  | none => q
  | some order =>
      let order := { order with status := OrderStatus.CANCELLED }
      { q with
        orders := pyInsert q.orders order_id order
        raw_ids :=
          if q.raw_ids.contains order_id then q.raw_ids.erase order_id else q.raw_ids
        batching_ids :=
          if q.batching_ids.contains order_id then q.batching_ids.erase order_id
          else q.batching_ids
        entered_raw_at := pyPopKey q.entered_raw_at order_id
        entered_batching_at := pyPopKey q.entered_batching_at order_id }

/-! ## Driver wave selection (`drivers/selection.py`, `drivers/policy.py`) -/

/-- Configuration of `drivers/policy.py` (`DriverPolicy`).  Decimal float
defaults are written with `mkRat` so the kernel can evaluate them. -/
structure DriverPolicy where
  wave_timeout_seconds : ℚ := 30
  wave_radii_degrees : List ℚ :=
    [mkRat 2 100, mkRat 4 100, mkRat 6 100, mkRat 8 100, mkRat 10 100]
  wave_eta_seconds : List ℚ := [180, 420, 600, 780, 960]
  default_required_capacity : ℤ := 1
deriving DecidableEq, Repr

/-- Embeds `DriverPolicy.validate` as a boolean (`true` iff no exception). -/
def DriverPolicy.validateOk (p : DriverPolicy) : Bool :=
  qLt 0 p.wave_timeout_seconds
    && (!p.wave_radii_degrees.isEmpty && p.wave_radii_degrees.length == 5)
    && (!p.wave_eta_seconds.isEmpty && p.wave_eta_seconds.length == 5)

/-- Embeds `default_driver_policy()`. -/
def default_driver_policy : DriverPolicy := {}

/-- Embeds `filter_eligible_drivers` (selection.py:12-28). -/
def filter_eligible_drivers (drivers : List Driver) (required_capacity : ℤ) :
    List Driver :=
  drivers.filter fun driver =>
    decide (driver.status = DriverStatus.AVAILABLE)
      && decide (required_capacity ≤ driver.max_capacity)

/-- Appends a driver to wave `idx` (Python `waves[idx].append(driver)`). -/
def waveAppend (waves : List (List Driver)) (idx : ℕ) (d : Driver) :
    List (List Driver) :=
  waves.set idx ((waves.getD idx []) ++ [d])

/-- The comparison `sqrt s ≤ r` of selection.py expressed without a square
root: for `s ≥ 0` (here `s` is a sum of squares) it is equivalent to
`0 ≤ r ∧ s ≤ r²`. -/
def sqrtLe (s r : ℚ) : Bool := qLe 0 r && qLe s (qMul r r)

/-- Squared Euclidean degree distance between a driver and the pickup; the
Python code compares and sorts on its square root, which is equivalent to
comparing and sorting on the square (`sqrtLe`, monotonicity). -/
def distSq (pickup : LatLon) (loc : LatLon) : ℚ :=
  qAdd (qMul (qSub pickup.1 loc.1) (qSub pickup.1 loc.1))
    (qMul (qSub pickup.2 loc.2) (qSub pickup.2 loc.2))

/-- The five-way `elif` chain of selection.py:74-83 and 100-109: bucket a
metric value against the five thresholds.  `none` (outer) models the
IndexError raised when the threshold list is shorter than the chain needs;
`some none` means the driver is beyond the fifth threshold (excluded). -/
def bucketIndex (le5 : ℚ → ℚ → Bool) (v : ℚ) (thresholds : List ℚ) :
    Option (Option ℕ) := do
  let t0 ← thresholds.get? 0
  if le5 v t0 then return some 0 else do
  let t1 ← thresholds.get? 1
  if le5 v t1 then return some 1 else do
  let t2 ← thresholds.get? 2
  if le5 v t2 then return some 2 else do
  let t3 ← thresholds.get? 3
  if le5 v t3 then return some 3 else do
  let t4 ← thresholds.get? 4
  if le5 v t4 then return some 4 else return none

/-- The OSRM branch of `build_driver_waves` (selection.py:56-89): bucket by
exact route ETA, sort each wave by route ETA, and return *without* the
five-driver cap (the early `return` at selection.py:89 precedes the cap).
The provider is modelled as a bare function, so the `hasattr(provider,
"prefetch")` probe is false and the prefetch call is skipped; `none` models
a raised IndexError (malformed threshold list or provider matrix). -/
def osrm_waves (pickup_location : LatLon) (eligible : List Driver)
    (policy : DriverPolicy) (tm : TimeMatrixProvider) :
    Option (List (List Driver)) := do
  let all_coords := pickup_location :: eligible.map (·.location)
  let times_matrix := tm all_coords
  let waves ← eligible.enum.foldlM (fun waves (p : ℕ × Driver) => do
      let driver_idx := p.1 + 1
      let duration_sec ← (times_matrix.get? driver_idx).bind (·.get? 0)
      let bucket ← bucketIndex qLe duration_sec policy.wave_eta_seconds
      match bucket with
      | some k => return waveAppend waves k p.2
      | none => return waves) [[], [], [], [], []]
  let sorted ← waves.mapM fun wave => do
    let keyed ← wave.mapM fun d => do
      let k ← ((tm [d.location, pickup_location]).get? 0).bind (·.get? 1)
      return (k, d)
    return (pySorted (fun a b => qLe a.1 b.1) keyed).map (·.2)
  return sorted

/-- The Cartesian fallback branch of `build_driver_waves`
(selection.py:91-124): bucket by degree distance, sort each wave by
distance, then cap each wave at five drivers. -/
def cartesian_waves (pickup_location : LatLon) (eligible : List Driver)
    (policy : DriverPolicy) : Option (List (List Driver)) :=
  Option.map
    (fun waves =>
      (waves.map fun wave =>
        pySorted (fun a b =>
          qLe (distSq pickup_location a.location)
            (distSq pickup_location b.location)) wave).map
        fun wave => wave.take 5)
    (eligible.foldlM (fun waves driver => do
      let dsq := distSq pickup_location driver.location
      let bucket ← bucketIndex sqrtLe dsq policy.wave_radii_degrees
      match bucket with
      | some k => return waveAppend waves k driver
      | none => return waves) [[], [], [], [], []])

def build_driver_waves (pickup_location : LatLon) (drivers : List Driver)
    (required_capacity : ℤ := 1) (policy? : Option DriverPolicy := none)
    (time_matrix_provider : Option TimeMatrixProvider := none) :
    Option (List (List Driver)) :=
  let policy := policy?.getD default_driver_policy
  let eligible := filter_eligible_drivers drivers required_capacity
  if eligible.isEmpty then some [[], [], [], [], []]
  else
    match time_matrix_provider with
    | some tm => osrm_waves pickup_location eligible policy tm
    | none => cartesian_waves pickup_location eligible policy

/-! ## Basic dict lemmas -/

theorem pyGet?_pyInsert_self [DecidableEq κ] (m : List (κ × α)) (k : κ) (v : α) :
    pyGet? (pyInsert m k v) k = some v := by
  induction m with
  | nil => simp [pyInsert, pyGet?]
  | cons kv rest ih =>
      obtain ⟨k', v'⟩ := kv
      by_cases h : k' = k
      · simp [pyInsert, pyGet?, h]
      · simp [pyInsert, pyGet?, h, ih]

theorem pyGet?_pyInsert_ne [DecidableEq κ] (m : List (κ × α)) (k k' : κ) (v : α)
    (h : k' ≠ k) : pyGet? (pyInsert m k v) k' = pyGet? m k' := by
  have h' : k ≠ k' := Ne.symm h
  induction m with
  | nil => simp [pyInsert, pyGet?, h']
  | cons kv rest ih =>
      obtain ⟨k'', v''⟩ := kv
      by_cases hk : k'' = k
      · subst hk
        simp [pyInsert, pyGet?, h']
      · by_cases hk' : k'' = k'
        · subst hk'
          simp [pyInsert, pyGet?, h, hk]
        · simp [pyInsert, pyGet?, hk, hk', ih]

/-! ## C1 / C2 support: acceptance resolution -/

theorem resolve_of_accepted (s : LockState) (job_id driver_id : String)
    (h : is_job_accepted s job_id = true) :
    resolve_driver_acceptance s job_id driver_id = (false, s) := by
  simp [resolve_driver_acceptance, h]

theorem resolve_of_not_accepted (s : LockState) (job_id driver_id : String)
    (h : is_job_accepted s job_id = false) :
    resolve_driver_acceptance s job_id driver_id =
      (true, mark_job_accepted s job_id driver_id) := by
  simp [resolve_driver_acceptance, h]

theorem mark_accepted_is_accepted (s : LockState) (job_id driver_id : String) :
    is_job_accepted (mark_job_accepted s job_id driver_id) job_id = true := by
  simp [is_job_accepted, mark_job_accepted, pyGet?_pyInsert_self]

theorem run_resolve_count_zero (s : LockState) (job_id : String) (ds : List String)
    (h : is_job_accepted s job_id = true) :
    ((run_resolve_calls s job_id ds).1.count true) = 0 := by
  induction ds with
  | nil => simp [run_resolve_calls]
  | cons d ds ih =>
      simp only [run_resolve_calls, resolve_of_accepted s job_id d h]
      simpa using ih

/-- C1: for every job id, across any serialized sequence of
`resolve_acceptance(job_id, driver_id)` calls, at most one call ever
returns true; and once the job is marked accepted, every later call
returns false (from an accepted state no call in the sequence returns
true). -/
theorem resolve_acceptance_single_winner (s : LockState) (job_id : String)
    (ds : List String) :
    ((run_resolve_calls s job_id ds).1.count true ≤ 1) ∧
    (is_job_accepted s job_id = true →
      ((run_resolve_calls s job_id ds).1.count true) = 0) := by
  refine ⟨?_, run_resolve_count_zero s job_id ds⟩
  cases ds with
  | nil => simp [run_resolve_calls]
  | cons d ds =>
      by_cases h : is_job_accepted s job_id = true
      · have h0 := run_resolve_count_zero s job_id (d :: ds) h
        omega
      · have hf : is_job_accepted s job_id = false := by
          simpa using h
        have hrest := run_resolve_count_zero (mark_job_accepted s job_id d)
          job_id ds (mark_accepted_is_accepted s job_id d)
        simp only [run_resolve_calls, resolve_of_not_accepted s job_id d hf]
        simpa using Nat.le_of_eq hrest

/-- Witness for C1: a concrete already-accepted state and call sequence. -/
theorem resolve_acceptance_single_winner_witness :
    ((run_resolve_calls { accepted := [("job1", "d0")], active_offer := [] }
        "job1" ["d1", "d2"]).1.count true) = 0 :=
  (resolve_acceptance_single_winner
    { accepted := [("job1", "d0")], active_offer := [] } "job1" ["d1", "d2"]).2
    (by decide)

/-- C2 counterexample: with job1 not yet accepted and an active offer
`["d1", "d2"]`, a call by the non-member driver "d9" returns true and marks
the job accepted by "d9" — the claim says such a call returns false and
leaves the acceptance state unchanged. -/
theorem resolve_acceptance_nonmember_counterexample :
    ("d9" ∉ get_active_offer_drivers
        { accepted := [], active_offer := [("job1", ["d1", "d2"])] } "job1") ∧
    (resolve_driver_acceptance
        { accepted := [], active_offer := [("job1", ["d1", "d2"])] }
        "job1" "d9").1 = true ∧
    is_job_accepted (resolve_driver_acceptance
        { accepted := [], active_offer := [("job1", ["d1", "d2"])] }
        "job1" "d9").2 "job1" = true := by
  refine ⟨by decide, by decide, by decide⟩

/-- C2 amended: `resolve_driver_acceptance` performs no offer-membership
check.  It returns false (with the state unchanged) exactly when the job is
already accepted; otherwise — member of the active offer or not — it
returns true and records the caller as the accepted driver. -/
theorem resolve_acceptance_no_membership_check (s : LockState)
    (job_id driver_id : String) :
    (is_job_accepted s job_id = true →
      resolve_driver_acceptance s job_id driver_id = (false, s)) ∧
    (is_job_accepted s job_id = false →
      (resolve_driver_acceptance s job_id driver_id).1 = true ∧
      pyGet? (resolve_driver_acceptance s job_id driver_id).2.accepted job_id =
        some driver_id) :=
  ⟨resolve_of_accepted s job_id driver_id,
   fun h => by
    rw [resolve_of_not_accepted s job_id driver_id h]
    exact ⟨rfl, pyGet?_pyInsert_self _ _ _⟩⟩

/-- Witness for the amended C2 at a concrete unaccepted state. -/
theorem resolve_acceptance_no_membership_check_witness :
    (resolve_driver_acceptance
        { accepted := [], active_offer := [("job1", ["d1"])] } "job1" "d9").1 = true ∧
    pyGet? (resolve_driver_acceptance
        { accepted := [], active_offer := [("job1", ["d1"])] }
        "job1" "d9").2.accepted "job1" = some "d9" :=
  (resolve_acceptance_no_membership_check
    { accepted := [], active_offer := [("job1", ["d1"])] } "job1" "d9").2 (by decide)

/-! ## C10: cancelled records block re-enqueue -/

/-- C10: after `evict_cancelled(order_id)` the cancelled record stays in the
queue's `_orders` map with status CANCELLED, so a later `enqueue_raw` of an
order with the same id is a no-op: the queue is unchanged and the stored
status remains CANCELLED. -/
theorem cancelled_blocks_reenqueue (q : OrdersQueue) (oid : String)
    (o order2 : Order) (now : ℚ) (horig : pyGet? q.orders oid = some o)
    (hid : order2.id = oid) :
    pyGet? (evict_cancelled q oid).orders oid =
      some { o with status := OrderStatus.CANCELLED } ∧
    enqueue_raw (evict_cancelled q oid) order2 now = evict_cancelled q oid ∧
    pyGet? (enqueue_raw (evict_cancelled q oid) order2 now).orders oid =
      some { o with status := OrderStatus.CANCELLED } := by
  have h1 : pyGet? (evict_cancelled q oid).orders oid =
      some { o with status := OrderStatus.CANCELLED } := by
    simp only [evict_cancelled, horig]
    exact pyGet?_pyInsert_self _ _ _
  have h2 : enqueue_raw (evict_cancelled q oid) order2 now = evict_cancelled q oid := by
    rw [enqueue_raw, hid, h1]
    simp
  exact ⟨h1, h2, by rw [h2, h1]⟩

/-- Witness for C10 at a concrete queue holding order "o1". -/
theorem cancelled_blocks_reenqueue_witness :
    pyGet? (enqueue_raw
        (evict_cancelled
          (enqueue_raw {} { id := "o1", pickup := (0, 0), dropoff := (1, 1) } 0) "o1")
        { id := "o1", pickup := (0, 0), dropoff := (1, 1) } 5).orders "o1" =
      some { id := "o1", pickup := (0, 0), dropoff := (1, 1),
             status := OrderStatus.CANCELLED } :=
  (cancelled_blocks_reenqueue
    (enqueue_raw {} { id := "o1", pickup := (0, 0), dropoff := (1, 1) } 0) "o1"
    { id := "o1", pickup := (0, 0), dropoff := (1, 1), status := OrderStatus.RAW }
    { id := "o1", pickup := (0, 0), dropoff := (1, 1) } 5 (by decide) (by decide)).2.2

/-! ## C8: RAW → BATCHING promotion -/

/-- Concrete queue for the C8 failing input: one RAW order "o1" with a known
`ready_at = 50`, enqueued at time 0. -/
def c8Queue : OrdersQueue :=
  enqueue_raw {} { id := "o1", pickup := (0, 0), dropoff := (1, 1),
                   ready_at := some 50 } 0

/-- C8 (code bug): at `now = 10` with `ready_horizon_secs = 60` the order
has `ready_at = 50 ≤ now + ready_horizon = 70`, so by the spec the order
must move to BATCHING; the code instead raises `NameError` because
queue.py:162 references the undefined name `ready_horizon_sec` (the
parameter is spelled `ready_horizon_secs`). -/
theorem move_raw_to_batching_namerror :
    move_raw_to_batching c8Queue 10 60 none none =
      .error "NameError: name ready_horizon_sec is not defined" := by
  rfl

/-! ## C9: wave fan-out cap -/

/-- A well-formed all-zero-durations provider for the C9 counterexample. -/
def c9Provider : TimeMatrixProvider := fun coords =>
  List.replicate coords.length (List.replicate coords.length 0)

/-- An available driver at the pickup for the C9 counterexample. -/
def c9Driver (n : String) : Driver :=
  { id := n, location := (0, 0), status := DriverStatus.AVAILABLE, max_capacity := 3 }

/-- C9 counterexample: with an injected time-matrix oracle, six eligible
drivers all inside the first ETA threshold land in wave 1, and the OSRM
branch returns before the five-driver cap (selection.py:89), so wave 1 has
six drivers — the claim says every wave has at most five for every input. -/
theorem build_driver_waves_uncapped_counterexample :
    (build_driver_waves (0, 0)
        [c9Driver "d1", c9Driver "d2", c9Driver "d3",
         c9Driver "d4", c9Driver "d5", c9Driver "d6"]
        1 (some {}) (some c9Provider)).map (fun ws => ws.map List.length) =
      some [6, 0, 0, 0, 0] := by
  rfl

/-- C9 amended: without an injected oracle (the Cartesian fallback path),
every wave returned by `build_driver_waves` has at most five drivers. -/
theorem build_driver_waves_fallback_capped (pickup : LatLon)
    (drivers : List Driver) (req : ℤ) (policy? : Option DriverPolicy)
    (ws : List (List Driver))
    (h : build_driver_waves pickup drivers req policy? none = some ws) :
    ∀ w ∈ ws, w.length ≤ 5 := by
  rw [build_driver_waves] at h
  by_cases he : (filter_eligible_drivers drivers req).isEmpty
  · rw [if_pos he] at h
    injection h with h
    subst h
    intro w hw
    have hw' : w = ([] : List Driver) := by simpa using hw
    subst hw'
    simp
  · rw [if_neg he, cartesian_waves] at h
    obtain ⟨waves, hfold, hret⟩ := Option.map_eq_some'.mp h
    subst hret
    intro w hw
    obtain ⟨w', hw', rfl⟩ := List.mem_map.mp hw
    simp [List.length_take_le]

/-- Witness for the amended C9 at a concrete fallback run with one eligible
driver. -/
theorem build_driver_waves_fallback_capped_witness :
    ([c9Driver "d1"] : List Driver).length ≤ 5 :=
  build_driver_waves_fallback_capped (0, 0) [c9Driver "d1"] 1 (some {})
    [[c9Driver "d1"], [], [], [], []] (by rfl) [c9Driver "d1"] (by decide)

/-! ## Batching policy (`orders/batching/policy.py`) -/

/-- Configuration of `BatchingPolicy`, with float fields as `ℚ` and int
fields as `ℤ` (decimal defaults written with `mkRat`).

Modelled from the spec: `orders/batching/scoring.py` reads two policy
attributes that `BatchingPolicy` does not define — `policy.allow_triples`
(scoring.py:117) and `policy.triple_detour_cap` (scoring.py:287); their
definitions are missing from the repository.  Following the spec (§4.3.3
attempts triple upgrades whenever the batch-size cap permits, and §6.1
names `multi_detour_cap` as the detour cap for bundles of size ≥ 3,
matching the `TRIPLE_DETOUR_CAP` of policy.py's own module docstring), the
embedding adds the boolean field `allow_triples` (default true) and reads
`multi_detour_cap` where scoring.py writes `triple_detour_cap`. -/
structure BatchingPolicy where
  max_batch_size : ℤ := 10
  max_cluster_candidates : ℤ := 20
  max_candidate_pairs : ℤ := 300
  near_pickup_time_sec : ℚ := 180
  enable_continuous_chaining : Bool := true
  chaining_radius_sec : ℚ := 400
  pair_detour_cap : ℚ := mkRat 115 100
  multi_detour_cap : ℚ := mkRat 125 100
  batching_soft_wait_sec : ℚ := 180
  batching_hard_wait_sec : ℚ := 600
  enable_rolling_horizon : Bool := true
  max_wait_time_seconds : ℚ := 180
  enforce_sla : Bool := false
  prefer_older_orders : Bool := true
  age_weight : ℚ := mkRat 5 100
  allow_triples : Bool := true
deriving DecidableEq, Repr

/-- Embeds `BatchingPolicy.validate` as a boolean (`true` iff no
exception is raised; the `if hard and soft` guard is CPython truthiness,
that is, both nonzero). -/
def BatchingPolicy.validateOk (p : BatchingPolicy) : Bool :=
  decide (1 ≤ p.max_batch_size)
    && qLe 1 p.pair_detour_cap
    && qLe 1 p.multi_detour_cap
    && qLt 0 p.near_pickup_time_sec
    && decide (0 < p.max_cluster_candidates)
    && decide (0 < p.max_candidate_pairs)
    && (qLe 0 p.batching_soft_wait_sec && qLe 0 p.batching_hard_wait_sec)
    && (!(decide (p.batching_hard_wait_sec ≠ 0) && decide (p.batching_soft_wait_sec ≠ 0))
        || qLe p.batching_soft_wait_sec p.batching_hard_wait_sec)

/-! ## Feasibility search (`orders/batching/feasibility.py`) -/

/-- The PICKUP stop built for an order (feasibility.py:56, scoring.py:391). -/
def pickupStop (o : Order) : Stop :=
  { stop_type := StopType.PICKUP, order_id := o.id, coord := o.pickup,
    pickup_id := o.pickup_id }

/-- The DROPOFF stop built for an order (feasibility.py:57, scoring.py:392). -/
def dropoffStop (o : Order) : Stop :=
  { stop_type := StopType.DROPOFF, order_id := o.id, coord := o.dropoff,
    pickup_id := o.pickup_id }

/-- Stop list of a bundle: pickup and dropoff per order, in order
(feasibility.py:54-57). -/
def bundleStops (orders : List Order) : List Stop :=
  orders.flatMap (fun o => [pickupStop o, dropoffStop o])

/-- Placeholder stop for out-of-range list indexing that cannot occur (the
permutations range over valid stop indices). -/
def dummyStop : Stop :=
  { stop_type := StopType.PICKUP, order_id := "", coord := (0, 0) }

/-- The `pickup_index` / `dropoff_index` dicts of feasibility.py:59-66,
mapping an order id to the index of its pickup/dropoff stop. -/
def stopIndexDicts (stops : List Stop) : List (String × ℕ) × List (String × ℕ) :=
  stops.enum.foldl
    (fun (pd : List (String × ℕ) × List (String × ℕ)) (p : ℕ × Stop) =>
      if p.2.stop_type = StopType.PICKUP then (pyInsert pd.1 p.2.order_id p.1, pd.2)
      else (pd.1, pyInsert pd.2 p.2.order_id p.1))
    ([], [])

/-- The `pos` dict of `_respects_precedence` (feasibility.py:148):
`{stop_idx: i for i, stop_idx in enumerate(perm)}`. -/
def permPosDict (perm : List ℕ) : List (ℕ × ℕ) :=
  perm.enum.foldl (fun m (p : ℕ × ℕ) => pyInsert m p.2 p.1) []

/-- Embeds `_respects_precedence` (feasibility.py:140-153).  A failed dict
lookup would be a Python KeyError; it cannot occur at the call site (the
permutations cover all stop indices and every order id has both stops), and
is mapped to `false`. -/
def respects_precedence (perm : List ℕ)
    (pickup_index dropoff_index : List (String × ℕ)) : Bool :=
  let pos := permPosDict perm
  pickup_index.all fun kv =>
    match pyGet? dropoff_index kv.1 with
    | none => false
    | some dropoff_idx =>
        match pyGet? pos kv.2, pyGet? pos dropoff_idx with
        | some pp, some pd => !decide (pd < pp)
        | _, _ => false

/-- Embeds `_sequence_time_seconds` (feasibility.py:156-167).  The matrix
dimensions are validated by the caller before this runs, so the `getD`
defaults are never read. -/
def sequence_time_seconds (perm : List ℕ) (durations : List (List ℚ)) : ℚ :=
  (perm.zip perm.tail).foldl
    (fun total p => qAdd total ((durations.getD p.1 []).getD p.2 0)) 0

/-- Fuel-based embedding of `itertools.permutations` over index lists: the
head element is chosen left to right and the remainder keeps its relative
order, which is exactly itertools' emission order for distinct elements.
The fuel is the list length, so it never runs out at the call sites. -/
def pyPermsAux : ℕ → List ℕ → List (List ℕ)
  | _, [] => [[]]
  | 0, _ :: _ => []
  | fuel + 1, x :: xs =>
      (x :: xs).flatMap fun y => (pyPermsAux fuel ((x :: xs).erase y)).map (y :: ·)

/-- Embeds `itertools.permutations(stop_indices)`. -/
def pyPermutations (l : List ℕ) : List (List ℕ) := pyPermsAux l.length l

/-- Result record of feasibility evaluation (feasibility.py:18-29).  Python
stores `float("inf")` as `best_time_seconds` for infeasible results and
never reads it; the embedding stores `0` there. -/
structure FeasibilityResult where
  is_feasible : Bool
  best_stops : List Stop
  best_time_seconds : ℚ
  explored_sequences : ℕ := 0
  reason : Option String := none
deriving DecidableEq, Repr

/-- The permutation search loop of `evaluate_bundle_feasibility`
(feasibility.py:81-93): fold over the candidate permutations keeping the
first strictly-best feasible sequence and the explored count. -/
def feasSearchFold (pidx didx : List (String × ℕ)) (durations : List (List ℚ))
    (perms : List (List ℕ)) : Option (List ℕ × ℚ) × ℕ :=
  perms.foldl
    (fun (st : Option (List ℕ × ℚ) × ℕ) perm =>
      let explored := st.2 + 1
      if !respects_precedence perm pidx didx then (st.1, explored)
      else
        let t := sequence_time_seconds perm durations
        match st.1 with
        | none => (some (perm, t), explored)
        | some best =>
            if qLt t best.2 then (some (perm, t), explored)
            else (some best, explored))
    (none, 0)

/-- Embeds `evaluate_bundle_feasibility` (feasibility.py:32-99). -/
def evaluate_bundle_feasibility (orders : List Order) (tm : TimeMatrixProvider) :
    FeasibilityResult :=
  if orders.length = 0 then
    { is_feasible := false, best_stops := [], best_time_seconds := 0,
      reason := some "empty bundle" }
  else if 3 < orders.length then
    { is_feasible := false, best_stops := [], best_time_seconds := 0,
      reason := some "bundle size > 3 not supported" }
  else
    let stops := bundleStops orders
    let pd := stopIndexDicts stops
    let coordinates := stops.map (·.coord)
    let durations := tm coordinates
    if durations.isEmpty || durations.length ≠ coordinates.length then
      { is_feasible := false, best_stops := [], best_time_seconds := 0,
        reason := some "invalid OSRM matrix (row count)" }
    else if durations.any (fun row => row.length ≠ coordinates.length) then
      { is_feasible := false, best_stops := [], best_time_seconds := 0,
        reason := some "invalid OSRM matrix (col count)" }
    else
      let stop_indices := List.range stops.length
      let st := feasSearchFold pd.1 pd.2 durations (pyPermutations stop_indices)
      match st.1 with
      | none =>
          { is_feasible := false, best_stops := [], best_time_seconds := 0,
            explored_sequences := st.2, reason := some "no feasible sequence" }
      | some best =>
          { is_feasible := true,
            best_stops := best.1.map (fun i => stops.getD i dummyStop),
            best_time_seconds := best.2, explored_sequences := st.2 }

/-- Embeds `best_single_time_sum_seconds` (feasibility.py:102-133): the sum
of individual pickup→dropoff times.  The index lists built by the Python
loop are `[0, 2, 4, …]` and `[1, 3, 5, …]`; an out-of-range matrix access
(IndexError) is `none`. -/
def best_single_time_sum_seconds (orders : List Order) (tm : TimeMatrixProvider) :
    Option ℚ :=
  if orders.isEmpty then some 0
  else
    let points := orders.flatMap (fun o => [o.pickup, o.dropoff])
    let idx_p := (List.range orders.length).map (fun k => 2 * k)
    let idx_d := (List.range orders.length).map (fun k => 2 * k + 1)
    let durations := tm points
    (idx_p.zip idx_d).foldlM
      (fun total p => do
        let row ← durations.get? p.1
        let v ← row.get? p.2
        return qAdd total v) 0

/-! ## Scoring and selection (`orders/batching/scoring.py`) -/

/-- Candidate bundle record (scoring.py:51-62); `order_ids` is the sorted
tuple as a list. -/
structure CandidateBundle where
  order_ids : List String
  stops : List Stop
  batch_time_seconds : ℚ
  single_time_sum_seconds : ℚ
  detour_ratio : ℚ
  savings_seconds : ℚ
  score : ℚ
deriving DecidableEq, Repr

/-- Age dictionary argument `order_age_seconds : Optional[Dict[str, float]]`. -/
abbrev AgesDict := Option (List (String × ℚ))

/-- CPython truthiness of the optional ages dict (`if order_age_seconds:`
is false for both `None` and an empty dict). -/
def agesTruthy (ages : AgesDict) : Bool :=
  match ages with
  | none => false
  | some l => !l.isEmpty

/-- The expression `order_age_seconds.get(oid, 0.0) if order_age_seconds
else 0.0` (scoring.py:134; also the per-order lookups at 203 and 296-299,
where the dict is known truthy). -/
def ageLookup (ages : AgesDict) (oid : String) : ℚ :=
  match ages with
  | none => 0
  | some l => (pyGet? l oid).getD 0

/-- Loop body of `_build_pair_candidates` for the pair `(xid, yid)`
(scoring.py:167-216): feasibility, detour cap, score, append.  Returns the
new candidate list and whether an append happened (the guard-rail break at
scoring.py:219-220 runs only after an append).  `none` models a raised
exception (unreachable dict misses / malformed provider matrix). -/
def pairBody (tm : TimeMatrixProvider) (policy : BatchingPolicy)
    (ages : AgesDict) (by_id : List (String × Order)) (xid yid : String)
    (acc : List CandidateBundle) : Option (List CandidateBundle × Bool) := do
  let o1 ← pyGet? by_id xid
  let o2 ← pyGet? by_id yid
  let feas := evaluate_bundle_feasibility [o1, o2] tm
  if !feas.is_feasible then return (acc, false) else do
  let single_sum ← best_single_time_sum_seconds [o1, o2] tm
  if qLe single_sum 0 then return (acc, false) else do
  let detour := qDiv feas.best_time_seconds single_sum
  if qLt policy.pair_detour_cap detour then return (acc, false) else do
  let savings := qSub single_sum feas.best_time_seconds
  let score :=
    if policy.prefer_older_orders && agesTruthy ages then
      qAdd savings (qMul policy.age_weight
        (qAdd (ageLookup ages o1.id) (ageLookup ages o2.id)))
    else savings
  return (acc ++ [{ order_ids := pySortPair o1.id o2.id, stops := feas.best_stops,
                    batch_time_seconds := feas.best_time_seconds,
                    single_time_sum_seconds := single_sum, detour_ratio := detour,
                    savings_seconds := savings, score := score }], true)

/-- Inner `for j` loop of `_build_pair_candidates` (scoring.py:166-220)
with the post-append guard-rail break. -/
def pairInner (tm : TimeMatrixProvider) (policy : BatchingPolicy)
    (ages : AgesDict) (by_id : List (String × Order)) (xid : String) :
    List String → List CandidateBundle → Option (List CandidateBundle)
  | [], acc => some acc
  | yid :: rest, acc => do
      let r ← pairBody tm policy ages by_id xid yid acc
      if r.2 && decide (policy.max_candidate_pairs ≤ (r.1.length : ℤ)) then
        some r.1
      else pairInner tm policy ages by_id xid rest r.1

/-- Outer `for i` loop of `_build_pair_candidates` (scoring.py:165-222)
with the post-inner-loop guard-rail break. -/
def pairOuter (tm : TimeMatrixProvider) (policy : BatchingPolicy)
    (ages : AgesDict) (by_id : List (String × Order)) :
    List String → List CandidateBundle → Option (List CandidateBundle)
  | [], acc => some acc
  | xid :: rest, acc => do
      let acc' ← pairInner tm policy ages by_id xid rest acc
      if decide (policy.max_candidate_pairs ≤ (acc'.length : ℤ)) then some acc'
      else pairOuter tm policy ages by_id rest acc'

/-- Embeds `_build_pair_candidates` (scoring.py:149-226): all pairs
`i < j`, then a stable descending sort by score (`reverse=True`). -/
def build_pair_candidates (orders : List Order) (tm : TimeMatrixProvider)
    (policy : BatchingPolicy) (ages : AgesDict) : Option (List CandidateBundle) := do
  let ids := orders.map (·.id)
  let by_id := orders.foldl (fun m o => pyInsert m o.id o) []
  let candidates ← pairOuter tm policy ages by_id ids []
  return pySorted (fun a b => qLe b.score a.score) candidates

/-- Embeds `_select_disjoint_greedy` (scoring.py:361-374). -/
def selectGreedyGo : List CandidateBundle → List CandidateBundle → List String →
    List CandidateBundle
  | [], selected, _ => selected
  | c :: cs, selected, used =>
      if c.order_ids.any (fun oid => used.contains oid) then
        selectGreedyGo cs selected used
      else selectGreedyGo cs (selected ++ [c]) (used ++ c.order_ids)

/-- Greedy selection of non-overlapping bundles by the list order (the
caller passes candidates already sorted by descending score). -/
def select_disjoint_greedy (candidates : List CandidateBundle) :
    List CandidateBundle :=
  selectGreedyGo candidates [] []

/-- Embeds `find_coords` inside `_rebuild_orders_from_stops`
(scoring.py:408-422): last matching pickup/dropoff coordinates and
pickup-location id for the order id; `none` is the raised ValueError. -/
def find_coords (stops : List Stop) (oid : String) :
    Option (LatLon × LatLon × Option String) :=
  let st := stops.foldl
    (fun (st : Option LatLon × Option LatLon × Option String) s =>
      if s.order_id ≠ oid then st
      else
        match s.stop_type with
        | StopType.PICKUP => (some s.coord, st.2.1, s.pickup_id)
        | StopType.DROPOFF => (st.1, some s.coord, s.pickup_id))
    (none, none, none)
  match st with
  | (some p, some d, pid) => some (p, d, pid)
  | _ => none

/-- Embeds `_rebuild_orders_from_stops` (scoring.py:399-430). -/
def rebuild_orders_from_stops (stops : List Stop) (o1_id o2_id : String) :
    Option (Order × Order) := do
  let c1 ← find_coords stops o1_id
  let c2 ← find_coords stops o2_id
  return ({ id := o1_id, pickup := c1.1, dropoff := c1.2.1, pickup_id := c1.2.2 },
          { id := o2_id, pickup := c2.1, dropoff := c2.2.1, pickup_id := c2.2.2 })

/-- Inner `for add in leftovers` loop of `_upgrade_pairs_to_triples`
(scoring.py:277-326): keep the best (gain, triple, added-id) option.  The
detour test reads the spec-modelled size-≥3 cap (see `BatchingPolicy`);
`single_add` (scoring.py:314) is computed and unused, but its matrix access
can raise, so it stays in the exception monad. -/
def tripleInner (tm : TimeMatrixProvider) (policy : BatchingPolicy)
    (ages : AgesDict) (pair : CandidateBundle) (o1 o2 : Order) :
    List Order → Option (ℚ × CandidateBundle × String) →
    Option (Option (ℚ × CandidateBundle × String))
  | [], best => some best
  | add :: rest, best => do
      let feas := evaluate_bundle_feasibility [o1, o2, add] tm
      if !feas.is_feasible then tripleInner tm policy ages pair o1 o2 rest best else do
      let single_sum ← best_single_time_sum_seconds [o1, o2, add] tm
      if qLe single_sum 0 then tripleInner tm policy ages pair o1 o2 rest best else do
      let detour := qDiv feas.best_time_seconds single_sum
      if qLt policy.multi_detour_cap detour then
        tripleInner tm policy ages pair o1 o2 rest best
      else do
      let savings := qSub single_sum feas.best_time_seconds
      let score :=
        if policy.prefer_older_orders && agesTruthy ages then
          qAdd savings (qMul policy.age_weight
            (qAdd (qAdd (ageLookup ages o1.id) (ageLookup ages o2.id))
              (ageLookup ages add.id)))
        else savings
      let triple : CandidateBundle :=
        { order_ids := pySortStrings [o1.id, o2.id, add.id], stops := feas.best_stops,
          batch_time_seconds := feas.best_time_seconds,
          single_time_sum_seconds := single_sum, detour_ratio := detour,
          savings_seconds := savings, score := score }
      let _single_add ← best_single_time_sum_seconds [add] tm
      let baseline := qAdd pair.savings_seconds 0
      let gain := qSub triple.savings_seconds baseline
      if qLe gain 0 then tripleInner tm policy ages pair o1 o2 rest best else do
      match best with
      | none => tripleInner tm policy ages pair o1 o2 rest (some (gain, triple, add.id))
      | some b =>
          if qLt b.1 gain then
            tripleInner tm policy ages pair o1 o2 rest (some (gain, triple, add.id))
          else tripleInner tm policy ages pair o1 o2 rest best

/-- Outer `for pair in selected_pairs` loop of `_upgrade_pairs_to_triples`
(scoring.py:258-329), collecting `upgrade_options`.  The tuple unpacking
`o1_id, o2_id = pair.order_ids` is total only for two-element tuples
(`none` otherwise), and the scoring.py:328 truthiness test drops an empty
added-order id. -/
def tripleOptions (tm : TimeMatrixProvider) (policy : BatchingPolicy)
    (ages : AgesDict) (leftovers : List Order) :
    List CandidateBundle → List (ℚ × CandidateBundle × CandidateBundle × String) →
    Option (List (ℚ × CandidateBundle × CandidateBundle × String))
  | [], opts => some opts
  | pair :: rest, opts => do
      match pair.order_ids with
      | [o1_id, o2_id] => do
          let os ← rebuild_orders_from_stops pair.stops o1_id o2_id
          let best ← tripleInner tm policy ages pair os.1 os.2 leftovers none
          match best with
          | some b =>
              if b.2.2.isEmpty then tripleOptions tm policy ages leftovers rest opts
              else tripleOptions tm policy ages leftovers rest (opts ++ [(b.1, b.2.1, pair, b.2.2)])
          | none => tripleOptions tm policy ages leftovers rest opts
      | _ => none

/-- The upgrade application loop of scoring.py:334-348: apply options by
descending gain, never reusing a leftover order or upgrading a pair twice.
State: `(used_leftover, triples, upgraded_pair_ids)`. -/
def applyUpgrades :
    List (ℚ × CandidateBundle × CandidateBundle × String) →
    List String × List CandidateBundle × List (List String) →
    List String × List CandidateBundle × List (List String)
  | [], st => st
  | opt :: rest, (used, triples, upg) =>
      if used.contains opt.2.2.2 then applyUpgrades rest (used, triples, upg)
      else if upg.contains opt.2.2.1.order_ids then applyUpgrades rest (used, triples, upg)
      else applyUpgrades rest
        (used ++ [opt.2.2.2], triples ++ [opt.2.1], upg ++ [opt.2.2.1.order_ids])

/-- Embeds `_upgrade_pairs_to_triples` (scoring.py:229-358).  Returns
`(triples, remaining_pairs, new_leftovers)`; the `leftover_by_id` dict of
scoring.py:251 is built and never used. -/
def upgrade_pairs_to_triples (tm : TimeMatrixProvider) (policy : BatchingPolicy)
    (ages : AgesDict) (selected_pairs : List CandidateBundle)
    (leftovers : List Order) :
    Option (List CandidateBundle × List CandidateBundle × List Order) :=
  if selected_pairs.isEmpty || leftovers.isEmpty then
    some ([], selected_pairs, leftovers)
  else do
    let opts ← tripleOptions tm policy ages leftovers selected_pairs []
    let sorted := pySorted (fun a b => qLe b.1 a.1) opts
    let st := applyUpgrades sorted ([], [], [])
    let remaining_pairs := selected_pairs.filter (fun p => !st.2.2.contains p.order_ids)
    let new_leftovers := leftovers.filter (fun o => !st.1.contains o.id)
    return (st.2.1, remaining_pairs, new_leftovers)

/-- Embeds `_candidate_to_job` (scoring.py:381-386). -/
def candidate_to_job (c : CandidateBundle) (jt : JobType) : Job :=
  { Job.new jt c.order_ids c.stops with
    eta := some c.batch_time_seconds, detour_factor := some c.detour_ratio,
    savings_percentage := some c.savings_seconds }

/-- Embeds `_single_job` (scoring.py:389-396). -/
def single_job (o : Order) : Job :=
  Job.new JobType.SINGLE [o.id] [pickupStop o, dropoffStop o]

/-- Embeds `score_and_select_jobs` (scoring.py:65-142): pairs, greedy
disjoint selection, optional triple upgrades, then singles for leftovers
with the rolling-horizon deferral (`age < max_wait_time_seconds` defers). -/
def score_and_select_jobs (orders : List Order) (tm : TimeMatrixProvider)
    (policy : BatchingPolicy) (ages : AgesDict) : Option (List Job) :=
  if orders.isEmpty then some []
  else do
    let by_id := orders.foldl (fun m o => pyInsert m o.id o) []
    let order_ids := by_id.map (·.1)
    let pair_candidates ← build_pair_candidates orders tm policy ages
    let selected_pairs0 := select_disjoint_greedy pair_candidates
    let used := selected_pairs0.flatMap (·.order_ids)
    let leftovers0 ← (order_ids.filter (fun oid => !used.contains oid)).mapM (pyGet? by_id)
    let upgraded ←
      if policy.allow_triples && decide (3 ≤ policy.max_batch_size)
          && !leftovers0.isEmpty then
        upgrade_pairs_to_triples tm policy ages selected_pairs0 leftovers0
      else some ([], selected_pairs0, leftovers0)
    let jobs := upgraded.1.map (candidate_to_job · JobType.BATCH_3)
      ++ upgraded.2.1.map (candidate_to_job · JobType.BATCH_2)
      ++ (upgraded.2.2.filter (fun o =>
            !(policy.enable_rolling_horizon
              && qLt (ageLookup ages o.id) policy.max_wait_time_seconds))).map single_job
    return jobs

/-! ## Clustering (`orders/batching/clustering.py`) -/

/-- Cluster keys.  The Python code uses formatted strings
(`"global_chaining_pool"`, `f"pickup_id:{pid}"`, `f"pickup_coord:{lat}:{lon}"`,
`f"merge:{root}"`); the embedding keeps the injective payloads instead of
formatting them — no consumer reads the key. -/
inductive ClusterKey where
  | chaining
  | pickupId (pid : String)
  | coord (c : ℚ × ℚ)
  | merge (root : ℕ)
deriving DecidableEq, Repr

structure Cluster where
  key : ClusterKey
  orders : List Order
deriving DecidableEq, Repr

/-- Round half to even (CPython `round` on the exact value; binary-float
representation artifacts of `round` on floats are outside the `ℚ` model). -/
def roundHalfEven (x : ℚ) : ℤ :=
  let f := x.floor
  let frac := qSub x (f : ℚ)
  if qLt frac (mkRat 1 2) then f
  else if qLt (mkRat 1 2) frac then f + 1
  else if f % 2 = 0 then f else f + 1

/-- Python `round(q, 4)` (clustering.py:141, precision 4). -/
def pyRoundTo4 (q : ℚ) : ℚ := Rat.divInt (roundHalfEven (qMul q 10000)) 10000

/-- Embeds `_cap` (clustering.py:125-128): `items[:max_n]`, or the whole
list when the cap is not positive (the `None` case cannot arise: every
caller passes the int policy field). -/
def cap_candidates (items : List Order) (max_n : ℤ) : List Order :=
  if max_n ≤ 0 then items else items.take max_n.toNat

/-- Ascending stable sort by creation time (`sorted(group, key=lambda x:
x.created_at)`). -/
def sortByCreatedAt (group : List Order) : List Order :=
  pySorted (fun a b => qLe a.created_at b.created_at) group

/-- Embeds `_bucket_by_pickup_coord` (clustering.py:131-143): bucket
orders by pickup coordinates rounded to 4 decimals. -/
def bucket_by_pickup_coord (orders : List Order) :
    List ((ℚ × ℚ) × List Order) :=
  orders.foldl
    (fun m o => pyAppendAt m (pyRoundTo4 o.pickup.1, pyRoundTo4 o.pickup.2) o) []

/-- Union-find `find` with path-halving dropped (compression does not
change roots); the fuel is the parent-array length, enough for any
acyclic parent chain built by `ufUnion`. -/
def findRoot (parent : List ℕ) : ℕ → ℕ → ℕ
  | 0, x => x
  | fuel + 1, x =>
      let p := parent.getD x x
      if p = x then x else findRoot parent fuel p

/-- Union-find `union` (clustering.py:186-189). -/
def ufUnion (parent : List ℕ) (a b : ℕ) : List ℕ :=
  let ra := findRoot parent parent.length a
  let rb := findRoot parent parent.length b
  if ra ≠ rb then parent.set rb ra else parent

/-- The ordered pairs `(i, j)` with `i < j < n`, as iterated by the nested
`range` loops of clustering.py:192-193. -/
def pairsBelow (n : ℕ) : List (ℕ × ℕ) :=
  (List.range n).flatMap fun i => ((List.range n).drop (i + 1)).map (fun j => (i, j))

/-- Python `dict.setdefault(k, []).extend(vs)` on a dict of lists. -/
def pyExtendAt [DecidableEq κ] (m : List (κ × List α)) (k : κ) (vs : List α) :
    List (κ × List α) :=
  match m with
  | [] => [(k, vs)]
  | (k', vs') :: rest =>
      if k' = k then (k, vs' ++ vs) :: rest else (k', vs') :: pyExtendAt rest k vs

/-- The regrouping fold of `_merge_near_pickup_clusters`
(clustering.py:199-204): `merged.setdefault(root, []).extend(c.orders)` per
enumerated cluster. -/
def mergeRegroup (parent : List ℕ) (clusters : List Cluster) :
    List (ℕ × List Order) :=
  clusters.enum.foldl
    (fun m (p : ℕ × Cluster) =>
      pyExtendAt m (findRoot parent parent.length p.1) p.2.orders) []

/-- Embeds `_merge_near_pickup_clusters` (clustering.py:146-217): compute a
representative-pickup duration matrix, union clusters within the
threshold (a failed matrix access is the caught IndexError: continue), and
regroup by union-find root. -/
def merge_near_pickup_clusters (clusters : List Cluster)
    (ptm : TimeMatrixProvider) (near_pickup_time_sec : ℚ)
    (max_cluster_candidates : ℤ) : List Cluster :=
  if clusters.length ≤ 1 then clusters
  else
    let reps : List LatLon := clusters.map fun c =>
      match c.orders with
      | [] => ((0 : ℚ), (0 : ℚ))
      | o :: _ => o.pickup
    let durations := ptm reps
    let n := clusters.length
    let parent := (pairsBelow n).foldl
      (fun parent p =>
        match (durations.get? p.1).bind (·.get? p.2),
            (durations.get? p.2).bind (·.get? p.1) with
        | some t_ij, some t_ji =>
            if qLe (if qLe t_ij t_ji then t_ij else t_ji) near_pickup_time_sec then
              ufUnion parent p.1 p.2
            else parent
        | _, _ => parent)
      (List.range n)
    let merged := mergeRegroup parent clusters
    merged.map fun kv =>
      { key := ClusterKey.merge kv.1,
        orders := cap_candidates (sortByCreatedAt kv.2) max_cluster_candidates }

/-- The pickup-id grouping fold of `build_clusters` (clustering.py:74-82):
orders with a truthy `pickup_id` go to the dict, the rest to the
coordinate-bucket list.  `if o.pickup_id:` is CPython truthiness: `None`
and the empty string both fall through. -/
def groupByPickupId (orders : List Order) :
    List (String × List Order) × List Order :=
  orders.foldl
    (fun (st : List (String × List Order) × List Order) o =>
      match o.pickup_id with
      | some pid =>
          if pid.isEmpty then (st.1, st.2 ++ [o]) else (pyAppendAt st.1 pid o, st.2)
      | none => (st.1, st.2 ++ [o]))
    ([], [])

/-- Embeds `build_clusters` (clustering.py:47-118). -/
def build_clusters (orders : List Order) (policy : BatchingPolicy)
    (pickup_time_matrix_provider : Option TimeMatrixProvider := none) :
    List Cluster :=
  if orders.isEmpty then []
  else if policy.enable_continuous_chaining then
    [{ key := ClusterKey.chaining, orders := orders }]
  else
    let grouped := groupByPickupId orders
    let clusters1 := grouped.1.map fun kv =>
      { key := ClusterKey.pickupId kv.1,
        orders := cap_candidates (sortByCreatedAt kv.2) policy.max_cluster_candidates }
    let coord_clusters := bucket_by_pickup_coord grouped.2
    let clusters2 := coord_clusters.map fun kv =>
      { key := ClusterKey.coord kv.1,
        orders := cap_candidates (sortByCreatedAt kv.2) policy.max_cluster_candidates }
    let clusters := clusters1 ++ clusters2
    match pickup_time_matrix_provider with
    | some ptm =>
        if qLt 0 policy.near_pickup_time_sec then
          merge_near_pickup_clusters clusters ptm policy.near_pickup_time_sec
            policy.max_cluster_candidates
        else clusters
    | none => clusters

/-! ## Batching engine (`orders/batching/engine.py`) -/

/-- Output of a batching run (engine.py:47-53). -/
structure BatchResult where
  jobs : List Job
  unbatched_orders : List Order
deriving DecidableEq, Repr

/-- The per-cluster loop of `batch_orders` (engine.py:113-136), threading
the job list and the `used_order_ids` set (modelled as a list used only
for membership). -/
def engineClusterLoop (tm : TimeMatrixProvider) (policy : BatchingPolicy)
    (ages : AgesDict) : List Cluster → List Job → List String →
    Option (List Job × List String)
  | [], jobs, used => some (jobs, used)
  | cluster :: rest, jobs, used =>
      if cluster.orders.isEmpty then engineClusterLoop tm policy ages rest jobs used
      else
        let cluster_orders := cluster.orders.filter (fun o => !used.contains o.id)
        if cluster_orders.isEmpty then engineClusterLoop tm policy ages rest jobs used
        else do
          let cluster_jobs ← score_and_select_jobs cluster_orders tm policy ages
          engineClusterLoop tm policy ages rest (jobs ++ cluster_jobs)
            (used ++ cluster_jobs.flatMap (·.order_ids))

/-- Embeds `batch_orders` (engine.py:56-142), the batching entry point:
validate the policy (`none` is the raised ValueError), build clusters,
score and select per cluster skipping already-used orders, and return the
jobs plus the unbatched remainder. -/
def batch_orders (orders : List Order) (policy : BatchingPolicy)
    (stop_time_matrix_provider : TimeMatrixProvider)
    (pickup_time_matrix_provider : Option TimeMatrixProvider := none)
    (order_age_seconds : AgesDict := none) : Option BatchResult :=
  if !policy.validateOk then none
  else if orders.isEmpty then some { jobs := [], unbatched_orders := [] }
  else do
    let clusters := build_clusters orders policy pickup_time_matrix_provider
    let r ← engineClusterLoop stop_time_matrix_provider policy order_age_seconds
      clusters [] []
    let by_id := orders.foldl (fun m o => pyInsert m o.id o) []
    let unbatched ←
      ((by_id.map (·.1)).filter (fun oid => !r.2.contains oid)).mapM (pyGet? by_id)
    return { jobs := r.1, unbatched_orders := unbatched }

/-! ## Feasibility lemmas -/

theorem pyPermsAux_perm :
    ∀ (fuel : ℕ) (l p : List ℕ), p ∈ pyPermsAux fuel l → List.Perm p l := by
  intro fuel
  induction fuel with
  | zero =>
      intro l p hp
      cases l with
      | nil =>
          simp only [pyPermsAux, List.mem_singleton] at hp
          subst hp
          exact List.Perm.refl _
      | cons x xs => simp [pyPermsAux] at hp
  | succ n ih =>
      intro l p hp
      cases l with
      | nil =>
          simp only [pyPermsAux, List.mem_singleton] at hp
          subst hp
          exact List.Perm.refl _
      | cons x xs =>
          simp only [pyPermsAux, List.mem_flatMap, List.mem_map] at hp
          obtain ⟨y, hy, q, hq, rfl⟩ := hp
          exact ((ih _ q hq).cons y).trans (List.perm_cons_erase hy).symm

theorem pyPermutations_perm (l p : List ℕ) (h : p ∈ pyPermutations l) :
    List.Perm p l :=
  pyPermsAux_perm _ _ _ h

theorem pyGet?_pyInsert_isSome [DecidableEq κ] (m : List (κ × α)) (k x : κ) (v : α)
    (h : (pyGet? m x).isSome) : (pyGet? (pyInsert m k v) x).isSome := by
  by_cases hx : x = k
  · subst hx
    rw [pyGet?_pyInsert_self]
    rfl
  · rwa [pyGet?_pyInsert_ne _ _ _ _ hx]

theorem posFoldQ (Q : ℕ → ℕ → Prop) :
    ∀ (perm : List ℕ) (n : ℕ) (m0 : List (ℕ × ℕ)),
    (∀ x i, pyGet? m0 x = some i → Q x i) →
    (∀ k x, perm.get? k = some x → Q x (n + k)) →
    ∀ x i,
      pyGet? (List.foldl (fun m (p : ℕ × ℕ) => pyInsert m p.2 p.1) m0
        (List.enumFrom n perm)) x = some i → Q x i := by
  intro perm
  induction perm with
  | nil =>
      intro n m0 h0 _ x i h
      exact h0 x i h
  | cons y perm' ih =>
      intro n m0 h0 hq x i h
      rw [List.enumFrom_cons] at h
      refine ih (n + 1) (pyInsert m0 y n) ?_ ?_ x i h
      · intro x' i' hx'
        by_cases hxy : x' = y
        · subst hxy
          rw [pyGet?_pyInsert_self] at hx'
          cases hx'
          exact hq 0 x' rfl
        · rw [pyGet?_pyInsert_ne _ _ _ _ hxy] at hx'
          exact h0 x' i' hx'
      · intro k x' hk
        have := hq (k + 1) x' (by simpa using hk)
        simpa [Nat.add_assoc, Nat.add_comm 1 k] using this

theorem permPosDict_get (perm : List ℕ) (x i : ℕ)
    (h : pyGet? (permPosDict perm) x = some i) : perm.get? i = some x := by
  refine posFoldQ (fun x i => perm.get? i = some x) perm 0 [] ?_ ?_ x i h
  · intro x i hx
    simp [pyGet?] at hx
  · intro k x hk
    simpa using hk

theorem posFold_isSome :
    ∀ (perm : List ℕ) (n : ℕ) (m0 : List (ℕ × ℕ)) (x : ℕ),
    (x ∈ perm ∨ (pyGet? m0 x).isSome) →
    (pyGet? (List.foldl (fun m (p : ℕ × ℕ) => pyInsert m p.2 p.1) m0
      (List.enumFrom n perm)) x).isSome := by
  intro perm
  induction perm with
  | nil =>
      intro n m0 x h
      rcases h with h | h
      · cases h
      · exact h
  | cons y perm' ih =>
      intro n m0 x h
      rw [List.enumFrom_cons]
      refine ih (n + 1) (pyInsert m0 y n) x ?_
      rcases h with h | h
      · rcases List.mem_cons.mp h with rfl | h
        · right
          rw [pyGet?_pyInsert_self]
          rfl
        · left
          exact h
      · right
        exact pyGet?_pyInsert_isSome _ _ _ _ h

theorem permPosDict_isSome (perm : List ℕ) (x : ℕ) (h : x ∈ perm) :
    (pyGet? (permPosDict perm) x).isSome :=
  posFold_isSome perm 0 [] x (Or.inl h)

/-- From a passing precedence check and a pickup/dropoff index pair, the
pickup's stop index appears strictly before the dropoff's in the
permutation. -/
theorem respects_precedence_lt (perm : List ℕ) (pidx didx : List (String × ℕ))
    (oid : String) (p d : ℕ) (h : respects_precedence perm pidx didx = true)
    (hp : (oid, p) ∈ pidx) (hd : pyGet? didx oid = some d)
    (hpin : p ∈ perm) (hdin : d ∈ perm) (hpd : p ≠ d) :
    ∃ i j, i < j ∧ perm.get? i = some p ∧ perm.get? j = some d := by
  have hall := (List.all_eq_true.mp h) (oid, p) hp
  obtain ⟨pp, hpp⟩ := Option.isSome_iff_exists.mp (permPosDict_isSome perm p hpin)
  obtain ⟨pd, hpdd⟩ := Option.isSome_iff_exists.mp (permPosDict_isSome perm d hdin)
  simp only [respects_precedence] at hall
  rw [hd] at hall
  simp only at hall
  rw [hpp, hpdd] at hall
  simp only [Bool.not_eq_true', decide_eq_false_iff_not, not_lt] at hall
  have h1 := permPosDict_get perm p pp hpp
  have h2 := permPosDict_get perm d pd hpdd
  have hne : pp ≠ pd := by
    intro hcon
    rw [hcon, h2] at h1
    exact hpd (Option.some_injective _ h1).symm
  exact ⟨pp, pd, lt_of_le_of_ne hall hne, h1, h2⟩

theorem range_map_getD (l : List α) (d : α) :
    (List.range l.length).map (fun i => l.getD i d) = l := by
  induction l with
  | nil => simp
  | cons x xs ih =>
      rw [List.length_cons, List.range_succ_eq_map, List.map_cons, List.map_map]
      have hmap : (List.range xs.length).map ((fun i => (x :: xs).getD i d) ∘ Nat.succ)
          = xs := by
        have hc : (List.range xs.length).map ((fun i => (x :: xs).getD i d) ∘ Nat.succ)
            = (List.range xs.length).map (fun i => xs.getD i d) :=
          List.map_congr_left (fun a _ => by simp [List.getD_cons_succ])
        rw [hc, ih]
      simp only [List.getD_cons_zero, hmap]

theorem perm_map_getD (l : List α) (d : α) (perm : List ℕ)
    (h : List.Perm perm (List.range l.length)) :
    List.Perm (perm.map fun i => l.getD i d) l := by
  have := h.map (fun i => l.getD i d)
  rwa [range_map_getD] at this

/-- The entries `(order id, stop index)` that `stopIndexDicts` produces:
order `k` (counting from stop offset `n`) contributes index `n + 2k` for
its pickup (`offset = 0`) and `n + 2k + 1` for its dropoff (`offset = 1`). -/
def idIndexEntries (n offset : ℕ) : List Order → List (String × ℕ)
  | [] => []
  | o :: os => (o.id, n + offset) :: idIndexEntries (n + 2) offset os

theorem pyInsert_fresh [DecidableEq κ] (m : List (κ × α)) (k : κ) (v : α)
    (h : k ∉ m.map Prod.fst) : pyInsert m k v = m ++ [(k, v)] := by
  induction m with
  | nil => rfl
  | cons kv rest ih =>
      simp only [List.map_cons, List.mem_cons] at h
      push_neg at h
      rw [pyInsert, if_neg (fun hc => h.1 hc.symm), ih h.2]
      simp

theorem bundleStops_cons (o : Order) (os : List Order) :
    bundleStops (o :: os) = pickupStop o :: dropoffStop o :: bundleStops os := by
  simp [bundleStops]

theorem stopIndexDictsAux :
    ∀ (os : List Order) (n : ℕ) (accp accd : List (String × ℕ)),
    (os.map Order.id).Nodup →
    (∀ o ∈ os, o.id ∉ accp.map Prod.fst) →
    (∀ o ∈ os, o.id ∉ accd.map Prod.fst) →
    List.foldl
      (fun (pd : List (String × ℕ) × List (String × ℕ)) (p : ℕ × Stop) =>
        if p.2.stop_type = StopType.PICKUP then (pyInsert pd.1 p.2.order_id p.1, pd.2)
        else (pd.1, pyInsert pd.2 p.2.order_id p.1))
      (accp, accd) (List.enumFrom n (bundleStops os)) =
      (accp ++ idIndexEntries n 0 os, accd ++ idIndexEntries n 1 os) := by
  intro os
  induction os with
  | nil =>
      intro n accp accd _ _ _
      simp [bundleStops, idIndexEntries]
  | cons o os ih =>
      intro n accp accd hN hfp hfd
      rw [bundleStops_cons, List.enumFrom_cons, List.enumFrom_cons, List.foldl_cons,
        List.foldl_cons]
      simp only [List.map_cons, List.nodup_cons] at hN
      have hp1 : (pickupStop o).stop_type = StopType.PICKUP := rfl
      have hd1 : (dropoffStop o).stop_type = StopType.DROPOFF := rfl
      rw [if_pos hp1, if_neg (by simp [hd1])]
      have hfo : o.id ∉ accp.map Prod.fst := hfp o (List.mem_cons_self o os)
      have hfo' : o.id ∉ accd.map Prod.fst := hfd o (List.mem_cons_self o os)
      have e1 : pyInsert accp (pickupStop o).order_id n = accp ++ [(o.id, n)] :=
        pyInsert_fresh accp o.id n hfo
      have e2 : pyInsert accd (dropoffStop o).order_id (n + 1) = accd ++ [(o.id, n + 1)] :=
        pyInsert_fresh accd o.id (n + 1) hfo'
      rw [e1, e2]
      have ih' := ih (n + 2) (accp ++ [(o.id, n)]) (accd ++ [(o.id, n + 1)]) hN.2
        (by
          intro o' ho'
          simp only [List.map_append, List.mem_append, List.map_cons, List.map_nil,
            List.mem_singleton]
          rintro (hc | hc)
          · exact hfp o' (List.mem_cons_of_mem o ho') hc
          · exact hN.1 (hc ▸ List.mem_map_of_mem Order.id ho'))
        (by
          intro o' ho'
          simp only [List.map_append, List.mem_append, List.map_cons, List.map_nil,
            List.mem_singleton]
          rintro (hc | hc)
          · exact hfd o' (List.mem_cons_of_mem o ho') hc
          · exact hN.1 (hc ▸ List.mem_map_of_mem Order.id ho'))
      rw [ih']
      simp [idIndexEntries, List.append_assoc]

theorem stopIndexDicts_eq (os : List Order) (hN : (os.map Order.id).Nodup) :
    stopIndexDicts (bundleStops os) = (idIndexEntries 0 0 os, idIndexEntries 0 1 os) := by
  have := stopIndexDictsAux os 0 [] [] hN (by simp) (by simp)
  simpa [stopIndexDicts, List.enum] using this

theorem idIndexEntries_mem :
    ∀ (os : List Order) (n offset : ℕ) (o : Order), o ∈ os →
    ∃ k, os.get? k = some o ∧ (o.id, n + 2 * k + offset) ∈ idIndexEntries n offset os := by
  intro os
  induction os with
  | nil => intro n offset o h; cases h
  | cons o' os ih =>
      intro n offset o h
      rcases List.mem_cons.mp h with rfl | h
      · exact ⟨0, rfl, by simp [idIndexEntries]⟩
      · obtain ⟨k, hk, hm⟩ := ih (n + 2) offset o h
        refine ⟨k + 1, by simpa using hk, ?_⟩
        rw [idIndexEntries]
        refine List.mem_cons_of_mem _ ?_
        have : n + 2 * (k + 1) + offset = n + 2 + 2 * k + offset := by omega
        rw [this]
        exact hm

theorem idIndexEntries_lookup :
    ∀ (os : List Order) (n offset : ℕ) (k : ℕ) (o : Order),
    (os.map Order.id).Nodup → os.get? k = some o →
    pyGet? (idIndexEntries n offset os) o.id = some (n + 2 * k + offset) := by
  intro os
  induction os with
  | nil => intro n offset k o _ hk; cases k <;> simp [List.get?] at hk
  | cons o' os ih =>
      intro n offset k o hN hk
      simp only [List.map_cons, List.nodup_cons] at hN
      cases k with
      | zero =>
          cases hk
          simp [idIndexEntries, pyGet?]
      | succ k =>
          have hmem : o ∈ os := List.get?_mem (by simpa using hk)
          have hne : o'.id ≠ o.id := by
            intro hc
            exact hN.1 (hc ▸ List.mem_map_of_mem Order.id hmem)
          rw [idIndexEntries, pyGet?, if_neg hne]
          have := ih (n + 2) offset k o hN.2 (by simpa using hk)
          rw [this]
          congr 1
          omega

theorem bundleStops_get :
    ∀ (os : List Order) (k : ℕ) (o : Order), os.get? k = some o →
    (bundleStops os).get? (2 * k) = some (pickupStop o) ∧
    (bundleStops os).get? (2 * k + 1) = some (dropoffStop o) := by
  intro os
  induction os with
  | nil => intro k o hk; cases k <;> simp [List.get?] at hk
  | cons o' os ih =>
      intro k o hk
      cases k with
      | zero =>
          cases hk
          rw [bundleStops_cons]
          exact ⟨rfl, rfl⟩
      | succ k =>
          rw [bundleStops_cons]
          have := ih k o (by simpa using hk)
          have h2 : 2 * (k + 1) = 2 * k + 1 + 1 := by omega
          rw [h2]
          simpa using this

theorem bundleStops_length (os : List Order) :
    (bundleStops os).length = 2 * os.length := by
  induction os with
  | nil => rfl
  | cons o os ih =>
      rw [bundleStops_cons]
      simp only [List.length_cons, ih]
      omega

theorem bundleStops_countP_pickup (os : List Order) (oid : String) :
    (bundleStops os).countP
        (fun s => decide (s.stop_type = StopType.PICKUP) && decide (s.order_id = oid)) =
      (os.map Order.id).count oid := by
  induction os with
  | nil => rfl
  | cons o os ih =>
      rw [bundleStops_cons, List.countP_cons, List.countP_cons, ih, List.map_cons,
        List.count_cons]
      by_cases h : o.id = oid <;> simp [pickupStop, dropoffStop, h, beq_iff_eq]

theorem bundleStops_countP_dropoff (os : List Order) (oid : String) :
    (bundleStops os).countP
        (fun s => decide (s.stop_type = StopType.DROPOFF) && decide (s.order_id = oid)) =
      (os.map Order.id).count oid := by
  induction os with
  | nil => rfl
  | cons o os ih =>
      rw [bundleStops_cons, List.countP_cons, List.countP_cons, ih, List.map_cons,
        List.count_cons]
      by_cases h : o.id = oid <;> simp [pickupStop, dropoffStop, h, beq_iff_eq]

/-- A PICKUP stop for `oid` occurs strictly before a DROPOFF stop for `oid`
(the spec's precedence invariant, claim C3's property, with positions read
off the stop sequence). -/
def PrecedenceOK (stops : List Stop) (oid : String) : Prop :=
  ∃ i j, i < j ∧
    (∃ s, stops.get? i = some s ∧ s.stop_type = StopType.PICKUP ∧ s.order_id = oid) ∧
    (∃ s, stops.get? j = some s ∧ s.stop_type = StopType.DROPOFF ∧ s.order_id = oid)

/-- The stop sequence has exactly one PICKUP and one DROPOFF for `oid`,
making claim C3's "the order's PICKUP stop" unambiguous. -/
def UniqueStops (stops : List Stop) (oid : String) : Prop :=
  stops.countP
      (fun s => decide (s.stop_type = StopType.PICKUP) && decide (s.order_id = oid)) = 1 ∧
  stops.countP
      (fun s => decide (s.stop_type = StopType.DROPOFF) && decide (s.order_id = oid)) = 1

theorem feasFoldQ (Q : List ℕ × ℚ → Prop) (pidx didx : List (String × ℕ))
    (durations : List (List ℚ)) :
    ∀ (perms : List (List ℕ)) (init : Option (List ℕ × ℚ) × ℕ),
    (∀ b, init.1 = some b → Q b) →
    (∀ perm ∈ perms, respects_precedence perm pidx didx = true →
      Q (perm, sequence_time_seconds perm durations)) →
    ∀ b,
      (perms.foldl
        (fun (st : Option (List ℕ × ℚ) × ℕ) perm =>
          let explored := st.2 + 1
          if !respects_precedence perm pidx didx then (st.1, explored)
          else
            let t := sequence_time_seconds perm durations
            match st.1 with
            | none => (some (perm, t), explored)
            | some best =>
                if qLt t best.2 then (some (perm, t), explored)
                else (some best, explored))
        init).1 = some b → Q b := by
  intro perms
  induction perms with
  | nil =>
      intro init h0 _ b hb
      exact h0 b hb
  | cons perm perms ih =>
      intro init h0 hstep b hb
      rw [List.foldl_cons] at hb
      refine ih _ ?_ (fun p hp hr => hstep p (List.mem_cons_of_mem _ hp) hr) b hb
      intro b' hb'
      by_cases hr : respects_precedence perm pidx didx = true
      · simp only [hr, Bool.not_true, Bool.false_eq_true, if_false] at hb'
        cases hinit : init.1 with
        | none =>
            rw [hinit] at hb'
            simp only [Option.some.injEq] at hb'
            rw [← hb']
            exact hstep perm (List.mem_cons_self _ _) hr
        | some best =>
            rw [hinit] at hb'
            by_cases hq : qLt (sequence_time_seconds perm durations) best.2 = true
            · simp only [hq, if_true, Option.some.injEq] at hb'
              rw [← hb']
              exact hstep perm (List.mem_cons_self _ _) hr
            · simp only [hq, Bool.false_eq_true, if_false, Option.some.injEq] at hb'
              rw [← hb']
              exact h0 best hinit
      · simp only [Bool.not_eq_true] at hr
        simp only [hr, Bool.not_false, if_true] at hb'
        exact h0 b' hb'

theorem feasSearchFold_some (pidx didx : List (String × ℕ))
    (durations : List (List ℚ)) (perms : List (List ℕ)) (b : List ℕ × ℚ)
    (h : (feasSearchFold pidx didx durations perms).1 = some b) :
    b.1 ∈ perms ∧ respects_precedence b.1 pidx didx = true := by
  refine feasFoldQ
    (fun b => b.1 ∈ perms ∧ respects_precedence b.1 pidx didx = true)
    pidx didx durations perms (none, 0) ?_ ?_ b h
  · intro b hb
    cases hb
  · intro perm hp hr
    exact ⟨hp, hr⟩

theorem evaluate_cases (os : List Order) (tm : TimeMatrixProvider) :
    (evaluate_bundle_feasibility os tm).is_feasible = false ∨
    ∃ perm,
      perm ∈ pyPermutations (List.range (bundleStops os).length) ∧
      respects_precedence perm (stopIndexDicts (bundleStops os)).1
        (stopIndexDicts (bundleStops os)).2 = true ∧
      (evaluate_bundle_feasibility os tm).best_stops =
        perm.map (fun i => (bundleStops os).getD i dummyStop) := by
  simp only [evaluate_bundle_feasibility]
  split_ifs with h1 h2 h3 h4
  · left; rfl
  · left; rfl
  · left; rfl
  · left; rfl
  · cases hcase : (feasSearchFold (stopIndexDicts (bundleStops os)).1
        (stopIndexDicts (bundleStops os)).2 (tm ((bundleStops os).map (·.coord)))
        (pyPermutations (List.range (bundleStops os).length))).1 with
    | none =>
        left
        simp only [hcase]
    | some best =>
        right
        have hQ := feasSearchFold_some _ _ _ _ best hcase
        exact ⟨best.1, hQ.1, hQ.2, by simp only [hcase]⟩

theorem getD_of_get? (l : List α) (n : ℕ) (d a : α) (h : l.get? n = some a) :
    l.getD n d = a := by
  rw [List.getD_eq_getElem?_getD, ← List.get?_eq_getElem?, h]
  rfl

/-- Soundness of the feasibility search: a feasible result's stop sequence
is a permutation of the bundle's stops and respects pickup-before-dropoff
for every member order, with exactly one pickup and one dropoff each. -/
theorem evaluate_feasible_sound (os : List Order) (tm : TimeMatrixProvider)
    (hN : (os.map Order.id).Nodup)
    (hf : (evaluate_bundle_feasibility os tm).is_feasible = true) :
    List.Perm (evaluate_bundle_feasibility os tm).best_stops (bundleStops os) ∧
    ∀ o ∈ os, PrecedenceOK (evaluate_bundle_feasibility os tm).best_stops o.id ∧
      UniqueStops (evaluate_bundle_feasibility os tm).best_stops o.id := by
  rcases evaluate_cases os tm with hfalse | ⟨perm, hmem, hresp, hstops⟩
  · rw [hf] at hfalse
    cases hfalse
  · have hperm : List.Perm perm (List.range (bundleStops os).length) :=
      pyPermutations_perm _ _ hmem
    have hbs : List.Perm (evaluate_bundle_feasibility os tm).best_stops
        (bundleStops os) := by
      rw [hstops]
      exact perm_map_getD _ _ _ hperm
    refine ⟨hbs, ?_⟩
    intro o ho
    obtain ⟨k, hk, hpmem⟩ := idIndexEntries_mem os 0 0 o ho
    have hdlook : pyGet? (idIndexEntries 0 1 os) o.id = some (0 + 2 * k + 1) :=
      idIndexEntries_lookup os 0 1 k o hN hk
    have hdicts := stopIndexDicts_eq os hN
    have hklen : k < os.length := (List.get?_eq_some.mp hk).1
    have hlen2 : (bundleStops os).length = 2 * os.length := bundleStops_length os
    have hp_in : (0 + 2 * k + 0) ∈ perm :=
      hperm.mem_iff.mpr (List.mem_range.mpr (by omega))
    have hd_in : (0 + 2 * k + 1) ∈ perm :=
      hperm.mem_iff.mpr (List.mem_range.mpr (by omega))
    have hlt := respects_precedence_lt perm (stopIndexDicts (bundleStops os)).1
      (stopIndexDicts (bundleStops os)).2 o.id (0 + 2 * k + 0) (0 + 2 * k + 1) hresp
      (by rw [hdicts]; exact hpmem) (by rw [hdicts]; exact hdlook)
      hp_in hd_in (by omega)
    obtain ⟨i, j, hij, hgi, hgj⟩ := hlt
    obtain ⟨hgetp, hgetd⟩ := bundleStops_get os k o hk
    constructor
    · refine ⟨i, j, hij, ⟨pickupStop o, ?_, rfl, rfl⟩, ⟨dropoffStop o, ?_, rfl, rfl⟩⟩
      · rw [hstops, List.get?_map, hgi]
        simp only [Option.map_some']
        congr 1
        refine getD_of_get? _ _ _ _ ?_
        simpa using hgetp
      · rw [hstops, List.get?_map, hgj]
        simp only [Option.map_some']
        congr 1
        refine getD_of_get? _ _ _ _ ?_
        simpa using hgetd
    · have hcount : (os.map Order.id).count o.id = 1 :=
        List.count_eq_one_of_mem hN (List.mem_map_of_mem Order.id ho)
      constructor
      · rw [hbs.countP_eq, bundleStops_countP_pickup, hcount]
      · rw [hbs.countP_eq, bundleStops_countP_dropoff, hcount]

/-! ## Scoring lemmas -/

theorem byIdAux :
    ∀ (pool : List Order) (acc : List (String × Order)),
    (pool.map Order.id).Nodup → (∀ o ∈ pool, o.id ∉ acc.map Prod.fst) →
    pool.foldl (fun m o => pyInsert m o.id o) acc =
      acc ++ pool.map (fun o => (o.id, o)) := by
  intro pool
  induction pool with
  | nil =>
      intro acc _ _
      simp
  | cons o pool ih =>
      intro acc hN hf
      simp only [List.map_cons, List.nodup_cons] at hN
      rw [List.foldl_cons,
        pyInsert_fresh acc o.id o (hf o (List.mem_cons_self o pool)),
        ih (acc ++ [(o.id, o)]) hN.2 ?_]
      · simp
      · intro o' ho'
        simp only [List.map_append, List.mem_append, List.map_cons, List.map_nil,
          List.mem_singleton]
        rintro (hc | hc)
        · exact hf o' (List.mem_cons_of_mem o ho') hc
        · exact hN.1 (hc ▸ List.mem_map_of_mem Order.id ho')

theorem byId_eq (pool : List Order) (hN : (pool.map Order.id).Nodup) :
    pool.foldl (fun m o => pyInsert m o.id o) [] = pool.map (fun o => (o.id, o)) := by
  simpa using byIdAux pool [] hN (by simp)

theorem pyGet?_map_mem (pool : List Order) (oid : String) (o : Order)
    (h : pyGet? (pool.map fun o => (o.id, o)) oid = some o) :
    o ∈ pool ∧ o.id = oid := by
  induction pool with
  | nil => simp [pyGet?] at h
  | cons o' pool ih =>
      rw [List.map_cons, pyGet?] at h
      by_cases hc : o'.id = oid
      · rw [if_pos hc] at h
        cases h
        exact ⟨List.mem_cons_self _ _, hc⟩
      · rw [if_neg hc] at h
        obtain ⟨hm, hid⟩ := ih h
        exact ⟨List.mem_cons_of_mem _ hm, hid⟩

theorem pyGet?_map_self (pool : List Order) (o : Order)
    (hN : (pool.map Order.id).Nodup) (ho : o ∈ pool) :
    pyGet? (pool.map fun o => (o.id, o)) o.id = some o := by
  induction pool with
  | nil => cases ho
  | cons o' pool ih =>
      simp only [List.map_cons, List.nodup_cons] at hN
      rcases List.mem_cons.mp ho with rfl | ho
      · rw [List.map_cons, pyGet?, if_pos rfl]
      · have hne : o'.id ≠ o.id := by
          intro hc
          exact hN.1 (hc ▸ List.mem_map_of_mem Order.id ho)
        rw [List.map_cons, pyGet?, if_neg hne]
        exact ih hN.2 ho

theorem pySortPair_perm (x y : String) : List.Perm (pySortPair x y) [x, y] := by
  rw [pySortPair]
  by_cases h : strLt y x = true
  · rw [if_pos h]
    exact List.Perm.swap x y []
  · rw [if_neg h]

/-- Everything claim C3/C5/C6 needs of a pair candidate produced by
`_build_pair_candidates`. -/
def GoodPair (policy : BatchingPolicy) (pool : List Order) (c : CandidateBundle) : Prop :=
  ∃ o1 o2 : Order, o1 ∈ pool ∧ o2 ∈ pool ∧ o1.id ≠ o2.id ∧
    c.order_ids = pySortPair o1.id o2.id ∧
    qLe c.detour_ratio policy.pair_detour_cap = true ∧
    List.Perm c.stops (bundleStops [o1, o2]) ∧
    (PrecedenceOK c.stops o1.id ∧ UniqueStops c.stops o1.id) ∧
    (PrecedenceOK c.stops o2.id ∧ UniqueStops c.stops o2.id)

theorem qLe_of_not_qLt (a b : ℚ) (h : qLt a b = false) : qLe b a = true := by
  rw [qLe_iff]
  have := (Bool.eq_false_iff.mp h)
  rw [show (qLt a b ≠ true) ↔ ¬(a < b) from not_congr (qLt_iff a b)] at this
  exact le_of_not_lt this

theorem pairBody_sound (tm : TimeMatrixProvider) (policy : BatchingPolicy)
    (ages : AgesDict) (pool : List Order) (xid yid : String)
    (acc out : List CandidateBundle) (app : Bool) (hxy : xid ≠ yid)
    (h : pairBody tm policy ages (pool.map fun o => (o.id, o)) xid yid acc =
      some (out, app)) :
    out = acc ∨ ∃ c, out = acc ++ [c] ∧ GoodPair policy pool c := by
  rw [pairBody] at h
  cases h1 : pyGet? (pool.map fun o => (o.id, o)) xid with
  | none =>
      rw [h1] at h
      simp at h
  | some o1 =>
      rw [h1] at h
      cases h2 : pyGet? (pool.map fun o => (o.id, o)) yid with
      | none =>
          rw [h2] at h
          simp at h
      | some o2 =>
          rw [h2] at h
          simp only [Option.bind_eq_bind, Option.some_bind] at h
          by_cases hfeas : (evaluate_bundle_feasibility [o1, o2] tm).is_feasible = true
          · simp only [hfeas, Bool.not_true, Bool.false_eq_true, if_false] at h
            cases h3 : best_single_time_sum_seconds [o1, o2] tm with
            | none =>
                rw [h3] at h
                simp at h
            | some single_sum =>
                rw [h3] at h
                simp only [Option.some_bind] at h
                by_cases hss : qLe single_sum 0 = true
                · simp only [hss, if_true, Option.pure_def, Option.some.injEq,
                    Prod.mk.injEq] at h
                  left
                  exact h.1.symm
                · simp only [hss, Bool.false_eq_true, if_false] at h
                  by_cases hdet : qLt policy.pair_detour_cap
                      (qDiv (evaluate_bundle_feasibility [o1, o2] tm).best_time_seconds
                        single_sum) = true
                  · simp only [hdet, if_true, Option.pure_def, Option.some.injEq,
                      Prod.mk.injEq] at h
                    left
                    exact h.1.symm
                  · simp only [hdet, Bool.false_eq_true, if_false, Option.pure_def,
                      Option.some.injEq, Prod.mk.injEq] at h
                    right
                    obtain ⟨ho1, hid1⟩ := pyGet?_map_mem pool xid o1 h1
                    obtain ⟨ho2, hid2⟩ := pyGet?_map_mem pool yid o2 h2
                    have hne : o1.id ≠ o2.id := by
                      rw [hid1, hid2]
                      exact hxy
                    have hN2 : ([o1, o2].map Order.id).Nodup := by
                      simp [hne]
                    obtain ⟨hperm, hforall⟩ :=
                      evaluate_feasible_sound [o1, o2] tm hN2 hfeas
                    refine ⟨_, h.1.symm, ?_⟩
                    exact ⟨o1, o2, ho1, ho2, hne, rfl,
                      qLe_of_not_qLt _ _ (Bool.eq_false_iff.mpr hdet), hperm,
                      hforall o1 (by simp), hforall o2 (by simp)⟩
          · simp only [Bool.not_eq_true] at hfeas
            simp only [hfeas, Bool.not_false, if_true, Option.pure_def,
              Option.some.injEq, Prod.mk.injEq] at h
            left
            exact h.1.symm

theorem pairInner_sound (tm : TimeMatrixProvider) (policy : BatchingPolicy)
    (ages : AgesDict) (pool : List Order) (xid : String) :
    ∀ (rest : List String) (acc out : List CandidateBundle),
    (∀ yid ∈ rest, xid ≠ yid) →
    pairInner tm policy ages (pool.map fun o => (o.id, o)) xid rest acc = some out →
    ∀ c ∈ out, c ∈ acc ∨ GoodPair policy pool c := by
  intro rest
  induction rest with
  | nil =>
      intro acc out _ h c hc
      rw [pairInner] at h
      cases h
      exact Or.inl hc
  | cons yid rest ih =>
      intro acc out hne h c hc
      rw [pairInner] at h
      cases hb : pairBody tm policy ages (pool.map fun o => (o.id, o)) xid yid acc with
      | none =>
          rw [hb] at h
          simp at h
      | some r =>
          rw [hb] at h
          simp only [Option.bind_eq_bind, Option.some_bind] at h
          have hstep := pairBody_sound tm policy ages pool xid yid acc r.1 r.2
            (hne yid (List.mem_cons_self _ _)) (by rw [hb])
          have hr1 : ∀ c ∈ r.1, c ∈ acc ∨ GoodPair policy pool c := by
            intro c hc
            rcases hstep with heq | ⟨c', heq, hg⟩
            · exact Or.inl (heq ▸ hc)
            · rw [heq] at hc
              rcases List.mem_append.mp hc with hc | hc
              · exact Or.inl hc
              · rw [List.mem_singleton.mp hc]
                exact Or.inr hg
          by_cases hbrk : (r.2 && decide (policy.max_candidate_pairs ≤ (r.1.length : ℤ)))
              = true
          · rw [if_pos hbrk] at h
            cases h
            exact hr1 c hc
          · rw [if_neg hbrk] at h
            have := ih r.1 out (fun y hy => hne y (List.mem_cons_of_mem _ hy)) h c hc
            rcases this with hin | hg
            · exact hr1 c hin
            · exact Or.inr hg

theorem pairOuter_sound (tm : TimeMatrixProvider) (policy : BatchingPolicy)
    (ages : AgesDict) (pool : List Order) :
    ∀ (ids : List String) (acc out : List CandidateBundle), ids.Nodup →
    pairOuter tm policy ages (pool.map fun o => (o.id, o)) ids acc = some out →
    ∀ c ∈ out, c ∈ acc ∨ GoodPair policy pool c := by
  intro ids
  induction ids with
  | nil =>
      intro acc out _ h c hc
      rw [pairOuter] at h
      cases h
      exact Or.inl hc
  | cons xid ids ih =>
      intro acc out hN h c hc
      rw [pairOuter] at h
      rw [List.nodup_cons] at hN
      cases hi : pairInner tm policy ages (pool.map fun o => (o.id, o)) xid ids acc with
      | none =>
          rw [hi] at h
          simp at h
      | some acc' =>
          rw [hi] at h
          simp only [Option.bind_eq_bind, Option.some_bind] at h
          have hacc' : ∀ c ∈ acc', c ∈ acc ∨ GoodPair policy pool c :=
            pairInner_sound tm policy ages pool xid ids acc acc'
              (fun y hy hc => hN.1 (hc ▸ hy)) hi
          by_cases hbrk : decide (policy.max_candidate_pairs ≤ (acc'.length : ℤ)) = true
          · rw [if_pos hbrk] at h
            cases h
            exact hacc' c hc
          · rw [if_neg hbrk] at h
            rcases ih acc' out hN.2 h c hc with hin | hg
            · exact hacc' c hin
            · exact Or.inr hg

theorem build_pair_candidates_sound (pool : List Order) (tm : TimeMatrixProvider)
    (policy : BatchingPolicy) (ages : AgesDict) (cands : List CandidateBundle)
    (hN : (pool.map Order.id).Nodup)
    (h : build_pair_candidates pool tm policy ages = some cands) :
    ∀ c ∈ cands, GoodPair policy pool c := by
  rw [build_pair_candidates, byId_eq pool hN] at h
  cases ho : pairOuter tm policy ages (pool.map fun o => (o.id, o))
      (pool.map (·.id)) [] with
  | none =>
      rw [ho] at h
      simp at h
  | some cs =>
      rw [ho] at h
      simp only [Option.bind_eq_bind, Option.some_bind, Option.pure_def,
        Option.some.injEq] at h
      intro c hc
      rw [← h] at hc
      rcases pairOuter_sound tm policy ages pool (pool.map (·.id)) [] cs hN ho c
          ((mem_pySorted _ c cs).mp hc) with hin | hg
      · cases hin
      · exact hg

/-- Disjointness of two candidate/job order-id lists. -/
def IdsDisjoint (xs ys : List String) : Prop := ∀ oid ∈ xs, oid ∉ ys

theorem selectGreedyGo_sound (P : CandidateBundle → Prop) :
    ∀ (cs selected : List CandidateBundle) (used : List String),
    (∀ c ∈ cs, P c) → (∀ c ∈ selected, P c) →
    selected.Pairwise (fun c1 c2 => IdsDisjoint c1.order_ids c2.order_ids) →
    (∀ c ∈ selected, ∀ oid ∈ c.order_ids, used.contains oid = true) →
    (∀ c ∈ selectGreedyGo cs selected used, P c) ∧
      (selectGreedyGo cs selected used).Pairwise
        (fun c1 c2 => IdsDisjoint c1.order_ids c2.order_ids) := by
  intro cs
  induction cs with
  | nil =>
      intro selected used _ hsel hdisj _
      rw [selectGreedyGo]
      exact ⟨hsel, hdisj⟩
  | cons c cs ih =>
      intro selected used hP hsel hdisj hused
      rw [selectGreedyGo]
      by_cases hskip : c.order_ids.any (fun oid => used.contains oid) = true
      · rw [if_pos hskip]
        exact ih selected used (fun c' hc' => hP c' (List.mem_cons_of_mem _ hc'))
          hsel hdisj hused
      · rw [if_neg hskip]
        have hfree : ∀ oid ∈ c.order_ids, used.contains oid = false := by
          intro oid ho
          by_contra hcon
          exact hskip (List.any_eq_true.mpr ⟨oid, ho, Bool.eq_true_of_ne_false hcon⟩)
        refine ih (selected ++ [c]) (used ++ c.order_ids)
          (fun c' hc' => hP c' (List.mem_cons_of_mem _ hc'))
          ?_ ?_ ?_
        · intro c' hc'
          rcases List.mem_append.mp hc' with hc' | hc'
          · exact hsel c' hc'
          · rw [List.mem_singleton.mp hc']
            exact hP c (List.mem_cons_self _ _)
        · rw [List.pairwise_append]
          refine ⟨hdisj, List.pairwise_singleton _ _, ?_⟩
          intro c1 hc1 c2 hc2
          rw [List.mem_singleton.mp hc2]
          intro oid ho1 ho2
          have := hused c1 hc1 oid ho1
          rw [hfree oid ho2] at this
          cases this
        · intro c' hc' oid ho
          rcases List.mem_append.mp hc' with hc' | hc'
          · have := hused c' hc' oid ho
            rw [List.contains_eq_any_beq] at this ⊢
            rw [List.any_append, this]
            rfl
          · rw [List.mem_singleton.mp hc'] at ho
            rw [List.contains_eq_any_beq, List.any_append]
            have : c.order_ids.any (fun x => oid == x) = true :=
              List.any_eq_true.mpr ⟨oid, ho, by simp⟩
            rw [this]
            simp

theorem select_disjoint_greedy_sound (P : CandidateBundle → Prop)
    (cands : List CandidateBundle) (hP : ∀ c ∈ cands, P c) :
    (∀ c ∈ select_disjoint_greedy cands, P c) ∧
      (select_disjoint_greedy cands).Pairwise
        (fun c1 c2 => IdsDisjoint c1.order_ids c2.order_ids) := by
  rw [select_disjoint_greedy]
  exact selectGreedyGo_sound P cands [] [] hP (by simp) (by simp) (by simp)

theorem mapM_lookup (pool : List Order) (hN : (pool.map Order.id).Nodup) :
    ∀ (sub : List Order), (∀ o ∈ sub, o ∈ pool) →
    (sub.map Order.id).mapM (pyGet? (pool.map fun o => (o.id, o))) = some sub := by
  intro sub
  induction sub with
  | nil =>
      intro _
      rfl
  | cons o sub ih =>
      intro hsub
      rw [List.map_cons, List.mapM_cons,
        pyGet?_map_self pool o hN (hsub o (List.mem_cons_self _ _)),
        ih (fun o' ho' => hsub o' (List.mem_cons_of_mem _ ho'))]
      rfl

theorem leftovers_eq (pool : List Order) (hN : (pool.map Order.id).Nodup)
    (p : String → Bool) :
    (((pool.map (fun o => (o.id, o))).map Prod.fst).filter p).mapM
        (pyGet? (pool.map fun o => (o.id, o))) =
      some (pool.filter (fun o => p o.id)) := by
  have h1 : (pool.map (fun o => (o.id, o))).map Prod.fst = pool.map Order.id := by
    rw [List.map_map]
    rfl
  rw [h1, List.map_filter]
  exact mapM_lookup pool hN (pool.filter (fun o => p o.id))
    (fun o ho => List.mem_of_mem_filter ho)

theorem find_coords_fold_fst :
    ∀ (stops : List Stop) (oid : String)
      (st0 : Option LatLon × Option LatLon × Option String),
    (st0.1.isSome ∨ ∃ s ∈ stops, s.stop_type = StopType.PICKUP ∧ s.order_id = oid) →
    ((stops.foldl
      (fun (st : Option LatLon × Option LatLon × Option String) s =>
        if s.order_id ≠ oid then st
        else
          match s.stop_type with
          | StopType.PICKUP => (some s.coord, st.2.1, s.pickup_id)
          | StopType.DROPOFF => (st.1, some s.coord, s.pickup_id)) st0).1).isSome := by
  intro stops
  induction stops with
  | nil =>
      intro oid st0 h
      rcases h with h | ⟨s, hs, _⟩
      · exact h
      · cases hs
  | cons s stops ih =>
      intro oid st0 h
      rw [List.foldl_cons]
      refine ih oid _ ?_
      by_cases hid : s.order_id = oid
      · rcases h with h | ⟨s', hs', hty, hid'⟩
        · cases hty : s.stop_type <;> simp [hid, hty, h]
        · rcases List.mem_cons.mp hs' with rfl | hs'
          · cases hty' : s'.stop_type
            · simp [hid, hty']
            · rw [hty'] at hty
              cases hty
          · cases hty2 : s.stop_type
            · simp [hid, hty2]
            · exact Or.inr ⟨s', hs', hty, hid'⟩
      · rcases h with h | ⟨s', hs', hty, hid'⟩
        · simp only [ne_eq, hid, not_false_iff, if_true]
          exact Or.inl h
        · rcases List.mem_cons.mp hs' with rfl | hs'
          · exact absurd hid' hid
          · simp only [ne_eq, hid, not_false_iff, if_true]
            exact Or.inr ⟨s', hs', hty, hid'⟩

theorem find_coords_fold_snd :
    ∀ (stops : List Stop) (oid : String)
      (st0 : Option LatLon × Option LatLon × Option String),
    (st0.2.1.isSome ∨ ∃ s ∈ stops, s.stop_type = StopType.DROPOFF ∧ s.order_id = oid) →
    ((stops.foldl
      (fun (st : Option LatLon × Option LatLon × Option String) s =>
        if s.order_id ≠ oid then st
        else
          match s.stop_type with
          | StopType.PICKUP => (some s.coord, st.2.1, s.pickup_id)
          | StopType.DROPOFF => (st.1, some s.coord, s.pickup_id)) st0).2.1).isSome := by
  intro stops
  induction stops with
  | nil =>
      intro oid st0 h
      rcases h with h | ⟨s, hs, _⟩
      · exact h
      · cases hs
  | cons s stops ih =>
      intro oid st0 h
      rw [List.foldl_cons]
      refine ih oid _ ?_
      by_cases hid : s.order_id = oid
      · rcases h with h | ⟨s', hs', hty, hid'⟩
        · cases hty : s.stop_type <;> simp [hid, hty, h]
        · rcases List.mem_cons.mp hs' with rfl | hs'
          · cases hty' : s'.stop_type
            · rw [hty'] at hty
              cases hty
            · simp [hid, hty']
          · cases hty2 : s.stop_type
            · exact Or.inr ⟨s', hs', hty, hid'⟩
            · simp [hid, hty2]
      · rcases h with h | ⟨s', hs', hty, hid'⟩
        · simp only [ne_eq, hid, not_false_iff, if_true]
          exact Or.inl h
        · rcases List.mem_cons.mp hs' with rfl | hs'
          · exact absurd hid' hid
          · simp only [ne_eq, hid, not_false_iff, if_true]
            exact Or.inr ⟨s', hs', hty, hid'⟩

theorem find_coords_isSome (stops : List Stop) (oid : String)
    (hp : ∃ s ∈ stops, s.stop_type = StopType.PICKUP ∧ s.order_id = oid)
    (hd : ∃ s ∈ stops, s.stop_type = StopType.DROPOFF ∧ s.order_id = oid) :
    (find_coords stops oid).isSome := by
  rw [find_coords]
  have h1 := find_coords_fold_fst stops oid (none, none, none) (Or.inr hp)
  have h2 := find_coords_fold_snd stops oid (none, none, none) (Or.inr hd)
  obtain ⟨p, hps⟩ := Option.isSome_iff_exists.mp h1
  obtain ⟨d, hds⟩ := Option.isSome_iff_exists.mp h2
  cases hfold : stops.foldl
      (fun (st : Option LatLon × Option LatLon × Option String) s =>
        if s.order_id ≠ oid then st
        else
          match s.stop_type with
          | StopType.PICKUP => (some s.coord, st.2.1, s.pickup_id)
          | StopType.DROPOFF => (st.1, some s.coord, s.pickup_id)) (none, none, none) with
  | mk a bc =>
      obtain ⟨b, c⟩ := bc
      rw [hfold] at hps hds
      simp only at hps hds
      rw [hps, hds]
      rfl

theorem pySortPair_cases (x y : String) :
    pySortPair x y = [x, y] ∨ pySortPair x y = [y, x] := by
  rw [pySortPair]
  by_cases h : strLt y x = true
  · rw [if_pos h]
    exact Or.inr rfl
  · rw [if_neg h]
    exact Or.inl rfl

/-- What the triple-upgrade inner loop guarantees of a candidate triple
built from `pair` by adding the leftover order with id `aid`. -/
def GoodTripleOf (policy : BatchingPolicy) (t pair : CandidateBundle)
    (aid : String) : Prop :=
  List.Perm t.order_ids (pair.order_ids ++ [aid]) ∧
  qLe t.detour_ratio policy.multi_detour_cap = true ∧
  (∀ oid ∈ t.order_ids, PrecedenceOK t.stops oid ∧ UniqueStops t.stops oid)

theorem tripleInner_sound (tm : TimeMatrixProvider) (policy : BatchingPolicy)
    (ages : AgesDict) (pair : CandidateBundle) (o1 o2 : Order)
    (Padd : Order → Prop) :
    ∀ (adds : List Order) (best out : Option (ℚ × CandidateBundle × String)),
    (∀ add ∈ adds, Padd add ∧ add.id ≠ o1.id ∧ add.id ≠ o2.id) →
    o1.id ≠ o2.id → pair.order_ids = [o1.id, o2.id] →
    (∀ g t aid, best = some (g, t, aid) →
      ∃ add, Padd add ∧ add.id = aid ∧ GoodTripleOf policy t pair aid) →
    tripleInner tm policy ages pair o1 o2 adds best = some out →
    ∀ g t aid, out = some (g, t, aid) →
      ∃ add, Padd add ∧ add.id = aid ∧ GoodTripleOf policy t pair aid := by
  intro adds
  induction adds with
  | nil =>
      intro best out _ _ _ hbest h
      rw [tripleInner] at h
      cases h
      exact hbest
  | cons add rest ih =>
      intro best out hadds h12 hpair hbest h
      have haddP := hadds add (List.mem_cons_self _ _)
      have hrest : ∀ a ∈ rest, Padd a ∧ a.id ≠ o1.id ∧ a.id ≠ o2.id :=
        fun a ha => hadds a (List.mem_cons_of_mem _ ha)
      rw [tripleInner] at h
      by_cases hfeas : (evaluate_bundle_feasibility [o1, o2, add] tm).is_feasible = true
      · simp only [hfeas, Bool.not_true, Bool.false_eq_true, if_false] at h
        cases h3 : best_single_time_sum_seconds [o1, o2, add] tm with
        | none =>
            rw [h3] at h
            simp at h
        | some single_sum =>
            rw [h3] at h
            simp only [Option.bind_eq_bind, Option.some_bind] at h
            by_cases hss : qLe single_sum 0 = true
            · rw [if_pos hss] at h
              exact ih best out hrest h12 hpair hbest h
            · rw [if_neg hss] at h
              by_cases hdet : qLt policy.multi_detour_cap
                  (qDiv (evaluate_bundle_feasibility [o1, o2, add] tm).best_time_seconds
                    single_sum) = true
              · rw [if_pos hdet] at h
                exact ih best out hrest h12 hpair hbest h
              · rw [if_neg hdet] at h
                cases h4 : best_single_time_sum_seconds [add] tm with
                | none =>
                    rw [h4] at h
                    simp at h
                | some sa =>
                    rw [h4] at h
                    simp only [Option.bind_eq_bind, Option.some_bind] at h
                    by_cases hgain : qLe (qSub (qSub single_sum
                        (evaluate_bundle_feasibility [o1, o2, add] tm).best_time_seconds)
                        (qAdd pair.savings_seconds 0)) 0 = true
                    · rw [if_pos hgain] at h
                      exact ih best out hrest h12 hpair hbest h
                    · rw [if_neg hgain] at h
                      have hN3 : ([o1, o2, add].map Order.id).Nodup := by
                        simp only [List.map_cons, List.map_nil, List.nodup_cons,
                          List.mem_cons, List.mem_singleton, List.not_mem_nil]
                        refine ⟨?_, ?_, ?_⟩
                        · rintro (hc | hc)
                          · exact h12 hc
                          · rcases hc with hc | hc
                            · exact haddP.2.1 hc.symm
                            · exact hc
                        · rintro (hc | hc)
                          · exact haddP.2.2 hc.symm
                          · exact hc
                        · trivial
                      obtain ⟨hperm, hforall⟩ :=
                        evaluate_feasible_sound [o1, o2, add] tm hN3 hfeas
                      have hgoodN : ∀ g t aid,
                          some ((qSub (qSub single_sum
                            (evaluate_bundle_feasibility [o1, o2, add] tm).best_time_seconds)
                            (qAdd pair.savings_seconds 0)),
                            ({ order_ids := pySortStrings [o1.id, o2.id, add.id],
                               stops := (evaluate_bundle_feasibility [o1, o2, add] tm).best_stops,
                               batch_time_seconds :=
                                 (evaluate_bundle_feasibility [o1, o2, add] tm).best_time_seconds,
                               single_time_sum_seconds := single_sum,
                               detour_ratio := qDiv
                                 (evaluate_bundle_feasibility [o1, o2, add] tm).best_time_seconds
                                 single_sum,
                               savings_seconds := qSub single_sum
                                 (evaluate_bundle_feasibility [o1, o2, add] tm).best_time_seconds,
                               score :=
                                 if (policy.prefer_older_orders && agesTruthy ages) = true then
                                   qAdd (qSub single_sum
                                     (evaluate_bundle_feasibility [o1, o2, add] tm).best_time_seconds)
                                     (qMul policy.age_weight
                                       (qAdd (qAdd (ageLookup ages o1.id) (ageLookup ages o2.id))
                                         (ageLookup ages add.id)))
                                 else qSub single_sum
                                   (evaluate_bundle_feasibility [o1, o2, add] tm).best_time_seconds } :
                              CandidateBundle), add.id) = some (g, t, aid) →
                          ∃ a, Padd a ∧ a.id = aid ∧ GoodTripleOf policy t pair aid := by
                        intro g t aid heq
                        simp only [Option.some.injEq, Prod.mk.injEq] at heq
                        obtain ⟨-, ht, haid⟩ := heq
                        refine ⟨add, haddP.1, haid, ?_⟩
                        subst haid
                        rw [← ht]
                        refine ⟨?_, qLe_of_not_qLt _ _ (Bool.eq_false_iff.mpr hdet), ?_⟩
                        · rw [hpair]
                          exact pySorted_perm _ _
                        · intro oid hoid
                          have hmem : oid ∈ [o1.id, o2.id, add.id] :=
                            (pySorted_perm _ _).mem_iff.mp hoid
                          simp only [List.mem_cons, List.mem_singleton,
                            List.not_mem_nil, or_false] at hmem
                          rcases hmem with rfl | rfl | rfl
                          · exact hforall o1 (by simp)
                          · exact hforall o2 (by simp)
                          · exact hforall add (by simp)
                      cases hbv : best with
                      | none =>
                          rw [hbv] at h
                          simp only [] at h
                          exact ih _ out hrest h12 hpair hgoodN h
                      | some b =>
                          rw [hbv] at h
                          simp only [] at h
                          by_cases hcmp : qLt b.1 (qSub (qSub single_sum
                              (evaluate_bundle_feasibility [o1, o2, add] tm).best_time_seconds)
                              (qAdd pair.savings_seconds 0)) = true
                          · rw [if_pos hcmp] at h
                            exact ih _ out hrest h12 hpair hgoodN h
                          · rw [if_neg hcmp] at h
                            refine ih _ out hrest h12 hpair ?_ h
                            intro g t aid heq
                            exact hbest g t aid (hbv ▸ heq)
      · simp only [Bool.not_eq_true] at hfeas
        simp only [hfeas, Bool.not_false, if_true] at h
        exact ih best out hrest h12 hpair hbest h

/-- The facts about a selected pair that the triple-upgrade loop needs:
two distinct member ids, both with pickup and dropoff stops present, and
no leftover order sharing an id with the pair. -/
def PairReady (leftovers : List Order) (p : CandidateBundle) : Prop :=
  ∃ a b : String, a ≠ b ∧ p.order_ids = [a, b] ∧
    (∃ s ∈ p.stops, s.stop_type = StopType.PICKUP ∧ s.order_id = a) ∧
    (∃ s ∈ p.stops, s.stop_type = StopType.DROPOFF ∧ s.order_id = a) ∧
    (∃ s ∈ p.stops, s.stop_type = StopType.PICKUP ∧ s.order_id = b) ∧
    (∃ s ∈ p.stops, s.stop_type = StopType.DROPOFF ∧ s.order_id = b) ∧
    (∀ add ∈ leftovers, add.id ≠ a ∧ add.id ≠ b)

/-- Invariant of the collected upgrade options. -/
def OptGood (policy : BatchingPolicy) (pairsSet : List CandidateBundle)
    (Padd : Order → Prop) (opt : ℚ × CandidateBundle × CandidateBundle × String) :
    Prop :=
  opt.2.2.1 ∈ pairsSet ∧
    ∃ add, Padd add ∧ add.id = opt.2.2.2 ∧
      GoodTripleOf policy opt.2.1 opt.2.2.1 opt.2.2.2

theorem tripleOptions_sound (tm : TimeMatrixProvider) (policy : BatchingPolicy)
    (ages : AgesDict) (Padd : Order → Prop) (leftovers : List Order)
    (pairsSet : List CandidateBundle)
    (hadds : ∀ add ∈ leftovers, Padd add) :
    ∀ (pairs : List CandidateBundle)
      (opts out : List (ℚ × CandidateBundle × CandidateBundle × String)),
    (∀ p ∈ pairs, p ∈ pairsSet) →
    (∀ p ∈ pairs, PairReady leftovers p) →
    (∀ o ∈ opts, OptGood policy pairsSet Padd o) →
    tripleOptions tm policy ages leftovers pairs opts = some out →
    ∀ o ∈ out, OptGood policy pairsSet Padd o := by
  intro pairs
  induction pairs with
  | nil =>
      intro opts out _ _ hopts h
      rw [tripleOptions] at h
      cases h
      exact hopts
  | cons pair pairs ih =>
      intro opts out hset hready hopts h
      obtain ⟨a, b, hab, hids, hpa, hda, hpb, hdb, hdisj⟩ :=
        hready pair (List.mem_cons_self _ _)
      rw [tripleOptions] at h
      rw [hids] at h
      simp only [] at h
      have hr1 := find_coords_isSome pair.stops a hpa hda
      have hr2 := find_coords_isSome pair.stops b hpb hdb
      obtain ⟨c1, hc1⟩ := Option.isSome_iff_exists.mp hr1
      obtain ⟨c2, hc2⟩ := Option.isSome_iff_exists.mp hr2
      have hreb : rebuild_orders_from_stops pair.stops a b =
          some ({ id := a, pickup := c1.1, dropoff := c1.2.1, pickup_id := c1.2.2 },
                { id := b, pickup := c2.1, dropoff := c2.2.1, pickup_id := c2.2.2 }) := by
        rw [rebuild_orders_from_stops, hc1, hc2]
        rfl
      rw [hreb] at h
      simp only [Option.bind_eq_bind, Option.some_bind] at h
      set o1r : Order :=
        { id := a, pickup := c1.1, dropoff := c1.2.1, pickup_id := c1.2.2 } with ho1r
      set o2r : Order :=
        { id := b, pickup := c2.1, dropoff := c2.2.1, pickup_id := c2.2.2 } with ho2r
      cases hbest : tripleInner tm policy ages pair o1r o2r leftovers none with
      | none =>
          rw [hbest] at h
          simp at h
      | some best =>
          rw [hbest] at h
          simp only [Option.some_bind] at h
          have hinner := tripleInner_sound tm policy ages pair o1r o2r Padd
            leftovers none best
            (fun add hadd => ⟨hadds add hadd, (hdisj add hadd).1, (hdisj add hadd).2⟩)
            hab hids (by intro g t aid hc; cases hc) hbest
          cases best with
          | none =>
              simp only [] at h
              exact ih opts out (fun p hp => hset p (List.mem_cons_of_mem _ hp))
                (fun p hp => hready p (List.mem_cons_of_mem _ hp)) hopts h
          | some bv =>
              simp only [] at h
              by_cases hemp : bv.2.2.isEmpty = true
              · rw [if_pos hemp] at h
                exact ih opts out (fun p hp => hset p (List.mem_cons_of_mem _ hp))
                  (fun p hp => hready p (List.mem_cons_of_mem _ hp)) hopts h
              · rw [if_neg hemp] at h
                refine ih _ out (fun p hp => hset p (List.mem_cons_of_mem _ hp))
                  (fun p hp => hready p (List.mem_cons_of_mem _ hp)) ?_ h
                intro o ho
                rcases List.mem_append.mp ho with ho | ho
                · exact hopts o ho
                · rw [List.mem_singleton.mp ho]
                  obtain ⟨add, hP, hid, hgood⟩ := hinner bv.1 bv.2.1 bv.2.2 (by rfl)
                  exact ⟨hset pair (List.mem_cons_self _ _), add, hP, hid, hgood⟩

theorem IdsDisjoint_symm (xs ys : List String) (h : IdsDisjoint xs ys) :
    IdsDisjoint ys xs := by
  intro oid hy hx
  exact h oid hx hy

/-- Provenance of an applied triple: some selected pair (recorded in the
upgraded set) plus some leftover order id (recorded as used). -/
def TripleProv (policy : BatchingPolicy) (selected_pairs : List CandidateBundle)
    (leftovers : List Order) (used : List String) (upg : List (List String))
    (t : CandidateBundle) : Prop :=
  ∃ p aid, p ∈ selected_pairs ∧ p.order_ids ∈ upg ∧ aid ∈ used ∧
    (∃ add ∈ leftovers, add.id = aid) ∧ GoodTripleOf policy t p aid

theorem applyUpgrades_sound (policy : BatchingPolicy)
    (selected_pairs : List CandidateBundle) (leftovers : List Order)
    (hdisjP : selected_pairs.Pairwise (fun c1 c2 => IdsDisjoint c1.order_ids c2.order_ids))
    (hready : ∀ p ∈ selected_pairs, PairReady leftovers p) :
    ∀ (opts : List (ℚ × CandidateBundle × CandidateBundle × String))
      (used : List String) (triples : List CandidateBundle)
      (upg : List (List String)),
    (∀ o ∈ opts, OptGood policy selected_pairs (· ∈ leftovers) o) →
    (∀ aid ∈ used, ∃ add ∈ leftovers, add.id = aid) →
    (∀ oids ∈ upg, ∃ p ∈ selected_pairs, p.order_ids = oids) →
    (∀ t ∈ triples, TripleProv policy selected_pairs leftovers used upg t) →
    triples.Pairwise (fun c1 c2 => IdsDisjoint c1.order_ids c2.order_ids) →
    (∀ aid ∈ (applyUpgrades opts (used, triples, upg)).1,
      ∃ add ∈ leftovers, add.id = aid) ∧
    (∀ oids ∈ (applyUpgrades opts (used, triples, upg)).2.2,
      ∃ p ∈ selected_pairs, p.order_ids = oids) ∧
    (∀ t ∈ (applyUpgrades opts (used, triples, upg)).2.1,
      TripleProv policy selected_pairs leftovers
        (applyUpgrades opts (used, triples, upg)).1
        (applyUpgrades opts (used, triples, upg)).2.2 t) ∧
    (applyUpgrades opts (used, triples, upg)).2.1.Pairwise
      (fun c1 c2 => IdsDisjoint c1.order_ids c2.order_ids) := by
  intro opts
  induction opts with
  | nil =>
      intro used triples upg _ hU hG hT hP
      rw [applyUpgrades]
      exact ⟨hU, hG, hT, hP⟩
  | cons opt rest ih =>
      intro used triples upg hopts hU hG hT hP
      have hoptsR : ∀ o ∈ rest, OptGood policy selected_pairs (· ∈ leftovers) o :=
        fun o ho => hopts o (List.mem_cons_of_mem _ ho)
      rw [applyUpgrades]
      by_cases hc1 : used.contains opt.2.2.2 = true
      · rw [if_pos hc1]
        exact ih used triples upg hoptsR hU hG hT hP
      · rw [if_neg hc1]
        by_cases hc2 : upg.contains opt.2.2.1.order_ids = true
        · rw [if_pos hc2]
          exact ih used triples upg hoptsR hU hG hT hP
        · rw [if_neg hc2]
          obtain ⟨hpmem, add, haddmem, haddid, hgood⟩ :=
            hopts opt (List.mem_cons_self _ _)
          have haidnew : opt.2.2.2 ∉ used := by
            intro hmem
            exact hc1 (List.elem_eq_true_of_mem hmem)
          have hupgnew : opt.2.2.1.order_ids ∉ upg := by
            intro hmem
            exact hc2 (List.elem_eq_true_of_mem hmem)
          refine ih (used ++ [opt.2.2.2]) (triples ++ [opt.2.1])
            (upg ++ [opt.2.2.1.order_ids]) hoptsR ?_ ?_ ?_ ?_
          · intro aid ha
            rcases List.mem_append.mp ha with ha | ha
            · exact hU aid ha
            · rw [List.mem_singleton.mp ha]
              exact ⟨add, haddmem, haddid⟩
          · intro oids ho
            rcases List.mem_append.mp ho with ho | ho
            · exact hG oids ho
            · rw [List.mem_singleton.mp ho]
              exact ⟨opt.2.2.1, hpmem, rfl⟩
          · intro t ht
            rcases List.mem_append.mp ht with ht | ht
            · obtain ⟨p, aid, hp1, hp2, hp3, hp4, hp5⟩ := hT t ht
              exact ⟨p, aid, hp1, List.mem_append_left _ hp2,
                List.mem_append_left _ hp3, hp4, hp5⟩
            · rw [List.mem_singleton.mp ht]
              exact ⟨opt.2.2.1, opt.2.2.2, hpmem,
                List.mem_append_right _ (List.mem_singleton.mpr rfl),
                List.mem_append_right _ (List.mem_singleton.mpr rfl),
                ⟨add, haddmem, haddid⟩, hgood⟩
          · rw [List.pairwise_append]
            refine ⟨hP, List.pairwise_singleton _ _, ?_⟩
            intro t1 ht1 t2 ht2
            rw [List.mem_singleton.mp ht2]
            obtain ⟨p1, aid1, hq1, hq2, hq3, ⟨add1, hadd1, hadd1id⟩, hq5⟩ := hT t1 ht1
            intro oid ho1 ho2
            have hm1 : oid ∈ p1.order_ids ∨ oid = aid1 := by
              have := hq5.1.mem_iff.mp ho1
              rcases List.mem_append.mp this with hx | hx
              · exact Or.inl hx
              · exact Or.inr (List.mem_singleton.mp hx)
            have hm2 : oid ∈ opt.2.2.1.order_ids ∨ oid = opt.2.2.2 := by
              have := hgood.1.mem_iff.mp ho2
              rcases List.mem_append.mp this with hx | hx
              · exact Or.inl hx
              · exact Or.inr (List.mem_singleton.mp hx)
            rcases hm1 with hm1 | hm1 <;> rcases hm2 with hm2 | hm2
            · have hne : p1 ≠ opt.2.2.1 := by
                intro hcon
                exact hupgnew (hcon ▸ hq2)
              exact hdisjP.forall
                (fun x y hxy => IdsDisjoint_symm _ _ hxy) hq1 hpmem hne oid hm1 hm2
            · obtain ⟨a1, b1, -, hids1, -, -, -, -, hdj1⟩ := hready p1 hq1
              rw [hm2, ← haddid] at hm1
              rw [hids1] at hm1
              rcases List.mem_cons.mp hm1 with hx | hx
              · exact (hdj1 add haddmem).1 hx
              · exact (hdj1 add haddmem).2 (List.mem_singleton.mp hx)
            · obtain ⟨a2, b2, -, hids2, -, -, -, -, hdj2⟩ := hready opt.2.2.1 hpmem
              rw [hm1, ← hadd1id] at hm2
              rw [hids2] at hm2
              rcases List.mem_cons.mp hm2 with hx | hx
              · exact (hdj2 add1 hadd1).1 hx
              · exact (hdj2 add1 hadd1).2 (List.mem_singleton.mp hx)
            · rw [hm1] at hm2
              rw [hm2] at hq3
              exact haidnew hq3

theorem not_mem_of_contains_false [BEq κ] [LawfulBEq κ] (l : List κ) (a : κ)
    (h : l.contains a = false) : a ∉ l := by
  intro hmem
  have he : List.elem a l = true := List.elem_eq_true_of_mem hmem
  have hc : l.contains a = List.elem a l := rfl
  rw [hc, he] at h
  cases h

theorem upgrade_pairs_to_triples_sound (tm : TimeMatrixProvider)
    (policy : BatchingPolicy) (ages : AgesDict)
    (selected_pairs : List CandidateBundle) (leftovers : List Order)
    (triples pairs' : List CandidateBundle) (leftovers' : List Order)
    (hdisjP : selected_pairs.Pairwise
      (fun c1 c2 => IdsDisjoint c1.order_ids c2.order_ids))
    (hready : ∀ p ∈ selected_pairs, PairReady leftovers p)
    (h : upgrade_pairs_to_triples tm policy ages selected_pairs leftovers =
      some (triples, pairs', leftovers')) :
    pairs'.Sublist selected_pairs ∧
    leftovers'.Sublist leftovers ∧
    (∀ t ∈ triples, ∃ p aid, p ∈ selected_pairs ∧
      (∃ add ∈ leftovers, add.id = aid) ∧ GoodTripleOf policy t p aid) ∧
    triples.Pairwise (fun c1 c2 => IdsDisjoint c1.order_ids c2.order_ids) ∧
    (∀ t ∈ triples, ∀ p ∈ pairs', IdsDisjoint t.order_ids p.order_ids) ∧
    (∀ t ∈ triples, ∀ o ∈ leftovers', o.id ∉ t.order_ids) := by
  rw [upgrade_pairs_to_triples] at h
  by_cases hemp : (selected_pairs.isEmpty || leftovers.isEmpty) = true
  · rw [if_pos hemp] at h
    simp only [Option.some.injEq, Prod.mk.injEq] at h
    obtain ⟨h1, h2, h3⟩ := h
    subst h1; subst h2; subst h3
    refine ⟨List.Sublist.refl _, List.Sublist.refl _, ?_, List.Pairwise.nil, ?_, ?_⟩
    · intro t ht
      cases ht
    · intro t ht
      cases ht
    · intro t ht
      cases ht
  · rw [if_neg hemp] at h
    cases hopts : tripleOptions tm policy ages leftovers selected_pairs [] with
    | none =>
        rw [hopts] at h
        simp at h
    | some opts =>
        rw [hopts] at h
        simp only [Option.bind_eq_bind, Option.some_bind, Option.pure_def,
          Option.some.injEq, Prod.mk.injEq] at h
        obtain ⟨h1, h2, h3⟩ := h
        have hoptsAll : ∀ o ∈ opts, OptGood policy selected_pairs (· ∈ leftovers) o :=
          tripleOptions_sound tm policy ages (· ∈ leftovers) leftovers
            selected_pairs (fun _ h => h) selected_pairs [] opts
            (fun p hp => hp) hready (fun o ho => absurd ho (List.not_mem_nil o)) hopts
        have hsorted : ∀ o ∈ pySorted (fun a b => qLe b.1 a.1) opts,
            OptGood policy selected_pairs (· ∈ leftovers) o :=
          fun o ho => hoptsAll o ((pySorted_perm _ _).mem_iff.mp ho)
        have happ := applyUpgrades_sound policy selected_pairs leftovers hdisjP
          hready (pySorted (fun a b => qLe b.1 a.1) opts) [] [] [] hsorted
          (by simp) (by simp) (by simp) List.Pairwise.nil
        set st := applyUpgrades (pySorted (fun a b => qLe b.1 a.1) opts)
          ([], [], []) with hst
        obtain ⟨hU, hG, hT, hP⟩ := happ
        subst h1
        refine ⟨?_, ?_, ?_, hP, ?_, ?_⟩
        · rw [← h2]
          exact List.filter_sublist _
        · rw [← h3]
          exact List.filter_sublist _
        · intro t ht
          obtain ⟨p, aid, hq1, _, _, hq4, hq5⟩ := hT t ht
          exact ⟨p, aid, hq1, hq4, hq5⟩
        · intro t ht p hp
          obtain ⟨pt, aid, hq1, hq2, hq3, ⟨add, hadd, haddid⟩, hq5⟩ := hT t ht
          rw [← h2] at hp
          have hpnot : p.order_ids ∉ st.2.2 := by
            have := (List.mem_filter.mp hp).2
            simp only [Bool.not_eq_true'] at this
            exact not_mem_of_contains_false _ _ this
          have hpmem : p ∈ selected_pairs := List.mem_of_mem_filter hp
          intro oid ho1 ho2
          have hm1 : oid ∈ pt.order_ids ∨ oid = aid := by
            have := hq5.1.mem_iff.mp ho1
            rcases List.mem_append.mp this with hx | hx
            · exact Or.inl hx
            · exact Or.inr (List.mem_singleton.mp hx)
          rcases hm1 with hm1 | hm1
          · have hne : pt ≠ p := by
              intro hcon
              exact hpnot (hcon ▸ hq2)
            exact hdisjP.forall (fun x y hxy => IdsDisjoint_symm _ _ hxy)
              hq1 hpmem hne oid hm1 ho2
          · obtain ⟨a2, b2, -, hids2, -, -, -, -, hdj2⟩ := hready p hpmem
            rw [hm1, ← haddid] at ho2
            rw [hids2] at ho2
            rcases List.mem_cons.mp ho2 with hx | hx
            · exact (hdj2 add hadd).1 hx
            · exact (hdj2 add hadd).2 (List.mem_singleton.mp hx)
        · intro t ht o ho
          obtain ⟨pt, aid, hq1, hq2, hq3, ⟨add, hadd, haddid⟩, hq5⟩ := hT t ht
          rw [← h3] at ho
          have honot : o.id ∉ st.1 := by
            have := (List.mem_filter.mp ho).2
            simp only [Bool.not_eq_true'] at this
            exact not_mem_of_contains_false _ _ this
          have homem : o ∈ leftovers := List.mem_of_mem_filter ho
          intro hin
          have hm : o.id ∈ pt.order_ids ∨ o.id = aid := by
            have := hq5.1.mem_iff.mp hin
            rcases List.mem_append.mp this with hx | hx
            · exact Or.inl hx
            · exact Or.inr (List.mem_singleton.mp hx)
          rcases hm with hm | hm
          · obtain ⟨a1, b1, -, hids1, -, -, -, -, hdj1⟩ := hready pt hq1
            rw [hids1] at hm
            rcases List.mem_cons.mp hm with hx | hx
            · exact (hdj1 o homem).1 hx
            · exact (hdj1 o homem).2 (List.mem_singleton.mp hx)
          · exact honot (hm ▸ hq3)

/-- Everything the claims assert about one emitted job, relative to the
pool of orders handed to `score_and_select_jobs` (identified by id list). -/
def JobGood (policy : BatchingPolicy) (ages : AgesDict) (poolIds : List String)
    (j : Job) : Prop :=
  j.order_ids.Nodup ∧
  (∀ oid ∈ j.order_ids, oid ∈ poolIds) ∧
  (∀ oid ∈ j.order_ids, PrecedenceOK j.stops oid ∧ UniqueStops j.stops oid) ∧
  ((j.job_type = JobType.SINGLE ∧ j.order_ids.length = 1) ∨
   (j.job_type = JobType.BATCH_2 ∧ j.order_ids.length = 2) ∨
   (j.job_type = JobType.BATCH_3 ∧ j.order_ids.length = 3)) ∧
  (j.job_type = JobType.BATCH_2 →
    ∃ q, j.detour_factor = some q ∧ q ≤ policy.pair_detour_cap) ∧
  (j.job_type = JobType.BATCH_3 →
    (∃ q, j.detour_factor = some q ∧ q ≤ policy.multi_detour_cap) ∧
    policy.allow_triples = true ∧ 3 ≤ policy.max_batch_size) ∧
  (j.job_type = JobType.SINGLE →
    ∀ oid ∈ j.order_ids, policy.enable_rolling_horizon = true →
      policy.max_wait_time_seconds ≤ ageLookup ages oid)

theorem candidate_to_job_fields (c : CandidateBundle) (jt : JobType) :
    (candidate_to_job c jt).order_ids = c.order_ids ∧
    (candidate_to_job c jt).stops = c.stops ∧
    (candidate_to_job c jt).job_type = jt ∧
    (candidate_to_job c jt).detour_factor = some c.detour_ratio :=
  ⟨rfl, rfl, rfl, rfl⟩

theorem single_job_fields (o : Order) :
    (single_job o).order_ids = [o.id] ∧
    (single_job o).stops = [pickupStop o, dropoffStop o] ∧
    (single_job o).job_type = JobType.SINGLE ∧
    (single_job o).detour_factor = none :=
  ⟨rfl, rfl, rfl, rfl⟩

theorem single_stops_precedence (o : Order) :
    PrecedenceOK [pickupStop o, dropoffStop o] o.id ∧
    UniqueStops [pickupStop o, dropoffStop o] o.id := by
  constructor
  · exact ⟨0, 1, Nat.zero_lt_one, ⟨pickupStop o, rfl, rfl, rfl⟩,
      ⟨dropoffStop o, rfl, rfl, rfl⟩⟩
  · constructor <;> simp [List.countP_cons, pickupStop, dropoffStop]

/-- From `GoodPair` plus leftover-id disjointness to the `PairReady` bundle
used by the triple-upgrade lemmas. -/
theorem goodPair_ready (policy : BatchingPolicy) (pool : List Order)
    (leftovers : List Order) (p : CandidateBundle) (hg : GoodPair policy pool p)
    (hdj : ∀ add ∈ leftovers, add.id ∉ p.order_ids) : PairReady leftovers p := by
  obtain ⟨o1, o2, ho1, ho2, hne, hids, hcap, hperm, ⟨hp1, hu1⟩, ⟨hp2, hu2⟩⟩ := hg
  have hstop : ∀ oid : String, ∀ ty : StopType,
      p.stops.countP
        (fun s => decide (s.stop_type = ty) && decide (s.order_id = oid)) = 1 →
      ∃ s ∈ p.stops, s.stop_type = ty ∧ s.order_id = oid := by
    intro oid ty hc
    have hpos : 0 < p.stops.countP
        (fun s => decide (s.stop_type = ty) && decide (s.order_id = oid)) := by
      omega
    obtain ⟨s, hs, hpred⟩ := List.countP_pos.mp hpos
    rw [Bool.and_eq_true, decide_eq_true_iff, decide_eq_true_iff] at hpred
    exact ⟨s, hs, hpred.1, hpred.2⟩
  rcases pySortPair_cases o1.id o2.id with hc | hc
  · refine ⟨o1.id, o2.id, hne, by rw [hids, hc], hstop o1.id _ hu1.1,
      hstop o1.id _ hu1.2, hstop o2.id _ hu2.1, hstop o2.id _ hu2.2, ?_⟩
    intro add hadd
    have := hdj add hadd
    rw [hids, hc] at this
    constructor
    · intro hcon
      exact this (hcon ▸ List.mem_cons_self _ _)
    · intro hcon
      exact this (hcon ▸ List.mem_cons_of_mem _ (List.mem_singleton.mpr rfl))
  · refine ⟨o2.id, o1.id, (Ne.symm hne), by rw [hids, hc], hstop o2.id _ hu2.1,
      hstop o2.id _ hu2.2, hstop o1.id _ hu1.1, hstop o1.id _ hu1.2, ?_⟩
    intro add hadd
    have := hdj add hadd
    rw [hids, hc] at this
    constructor
    · intro hcon
      exact this (hcon ▸ List.mem_cons_self _ _)
    · intro hcon
      exact this (hcon ▸ List.mem_cons_of_mem _ (List.mem_singleton.mpr rfl))

/-- Assembles the per-group facts about upgraded triples, remaining pairs
and leftover singles into `JobGood` plus pairwise id-disjointness of the
job list emitted by `score_and_select_jobs`. -/
theorem jobs_assembly_sound (policy : BatchingPolicy) (ages : AgesDict)
    (pool : List Order) (pairs0 : List CandidateBundle) (L0 : List Order)
    (T P2 : List CandidateBundle) (L2 : List Order)
    (hpairs0good : ∀ p ∈ pairs0, GoodPair policy pool p)
    (hpairs0disj : pairs0.Pairwise
      (fun c1 c2 => IdsDisjoint c1.order_ids c2.order_ids))
    (hL0pool : ∀ o ∈ L0, o ∈ pool)
    (hL0dj : ∀ o ∈ L0, ∀ p ∈ pairs0, o.id ∉ p.order_ids)
    (hL0N : (L0.map Order.id).Nodup)
    (hP2 : P2.Sublist pairs0)
    (hL2 : L2.Sublist L0)
    (hTgood : ∀ t ∈ T, ∃ p aid, p ∈ pairs0 ∧ (∃ add ∈ L0, add.id = aid) ∧
      GoodTripleOf policy t p aid)
    (hTdisj : T.Pairwise (fun c1 c2 => IdsDisjoint c1.order_ids c2.order_ids))
    (hTP2 : ∀ t ∈ T, ∀ p ∈ P2, IdsDisjoint t.order_ids p.order_ids)
    (hTL2 : ∀ t ∈ T, ∀ o ∈ L2, o.id ∉ t.order_ids)
    (hTnz : T ≠ [] → policy.allow_triples = true ∧ 3 ≤ policy.max_batch_size) :
    (∀ j ∈ T.map (candidate_to_job · JobType.BATCH_3)
        ++ P2.map (candidate_to_job · JobType.BATCH_2)
        ++ (L2.filter (fun o =>
            !(policy.enable_rolling_horizon
              && qLt (ageLookup ages o.id) policy.max_wait_time_seconds))).map
          single_job,
      JobGood policy ages (pool.map Order.id) j) ∧
    (T.map (candidate_to_job · JobType.BATCH_3)
        ++ P2.map (candidate_to_job · JobType.BATCH_2)
        ++ (L2.filter (fun o =>
            !(policy.enable_rolling_horizon
              && qLt (ageLookup ages o.id) policy.max_wait_time_seconds))).map
          single_job).Pairwise
      (fun j1 j2 => IdsDisjoint j1.order_ids j2.order_ids) := by
  have hmemids : ∀ p ∈ pairs0, ∀ o1 o2 : Order,
      p.order_ids = pySortPair o1.id o2.id →
      ∀ oid ∈ p.order_ids, oid = o1.id ∨ oid = o2.id := by
    intro p _ o1 o2 hids oid hm
    rw [hids] at hm
    have := (pySortPair_perm o1.id o2.id).mem_iff.mp hm
    rcases List.mem_cons.mp this with h | h
    · exact Or.inl h
    · exact Or.inr (List.mem_singleton.mp h)
  have hTriGood : ∀ t ∈ T,
      JobGood policy ages (pool.map Order.id) (candidate_to_job t JobType.BATCH_3) := by
    intro t ht
    obtain ⟨p, aid, hp, ⟨add, haddL, haddid⟩, hperm, hdet, hpu⟩ := hTgood t ht
    obtain ⟨o1, o2, ho1, ho2, hne, hids, _, _, _, _⟩ := hpairs0good p hp
    have hlen2 : p.order_ids.length = 2 := by
      rcases pySortPair_cases o1.id o2.id with hc | hc <;> rw [hids, hc] <;> rfl
    have hNodupP : p.order_ids.Nodup := by
      rw [hids]
      rcases pySortPair_cases o1.id o2.id with hc | hc <;> rw [hc]
      · simp [hne]
      · simp [Ne.symm hne]
    have haidnot : aid ∉ p.order_ids := by
      intro hc
      exact hL0dj add haddL p hp (haddid ▸ hc)
    obtain ⟨hf1, hf2, hf3, hf4⟩ := candidate_to_job_fields t JobType.BATCH_3
    simp only [JobGood, hf1, hf2, hf3, hf4]
    refine ⟨?_, ?_, hpu, Or.inr (Or.inr ⟨trivial, ?_⟩), ?_, ?_, ?_⟩
    · refine hperm.nodup_iff.mpr ?_
      rw [List.nodup_append]
      refine ⟨hNodupP, List.nodup_singleton _, ?_⟩
      intro x hx hx2
      exact haidnot ((List.mem_singleton.mp hx2) ▸ hx)
    · intro oid hm
      have := hperm.mem_iff.mp hm
      rcases List.mem_append.mp this with h | h
      · rcases hmemids p hp o1 o2 hids oid h with rfl | rfl
        · exact List.mem_map_of_mem Order.id ho1
        · exact List.mem_map_of_mem Order.id ho2
      · have hx : oid = aid := List.mem_singleton.mp h
        rw [hx, ← haddid]
        exact List.mem_map_of_mem Order.id (hL0pool add haddL)
    · rw [hperm.length_eq, List.length_append, hlen2]
      rfl
    · intro h
      exact nomatch h
    · intro _
      have hnz := hTnz (List.ne_nil_of_mem ht)
      exact ⟨⟨t.detour_ratio, rfl, (qLe_iff _ _).mp hdet⟩, hnz.1, hnz.2⟩
    · intro h
      exact nomatch h
  have hPairGood : ∀ p ∈ pairs0,
      JobGood policy ages (pool.map Order.id) (candidate_to_job p JobType.BATCH_2) := by
    intro p hp
    obtain ⟨o1, o2, ho1, ho2, hne, hids, hcap, _, hpu1, hpu2⟩ := hpairs0good p hp
    obtain ⟨hf1, hf2, hf3, hf4⟩ := candidate_to_job_fields p JobType.BATCH_2
    simp only [JobGood, hf1, hf2, hf3, hf4]
    refine ⟨?_, ?_, ?_, Or.inr (Or.inl ⟨trivial, ?_⟩), ?_, ?_, ?_⟩
    · rw [hids]
      rcases pySortPair_cases o1.id o2.id with hc | hc <;> rw [hc]
      · simp [hne]
      · simp [Ne.symm hne]
    · intro oid hm
      rcases hmemids p hp o1 o2 hids oid hm with rfl | rfl
      · exact List.mem_map_of_mem Order.id ho1
      · exact List.mem_map_of_mem Order.id ho2
    · intro oid hm
      rcases hmemids p hp o1 o2 hids oid hm with rfl | rfl
      · exact hpu1
      · exact hpu2
    · rcases pySortPair_cases o1.id o2.id with hc | hc <;> rw [hids, hc] <;> rfl
    · intro _
      exact ⟨p.detour_ratio, rfl, (qLe_iff _ _).mp hcap⟩
    · intro h
      exact nomatch h
    · intro h
      exact nomatch h
  have hSingleGood : ∀ o ∈ L2.filter (fun o =>
        !(policy.enable_rolling_horizon
          && qLt (ageLookup ages o.id) policy.max_wait_time_seconds)),
      JobGood policy ages (pool.map Order.id) (single_job o) := by
    intro o ho
    have hoL2 := List.mem_of_mem_filter ho
    have hopool := hL0pool o (hL2.subset hoL2)
    have hq := List.of_mem_filter ho
    obtain ⟨hf1, hf2, hf3, hf4⟩ := single_job_fields o
    simp only [JobGood, hf1, hf2, hf3, hf4]
    refine ⟨List.nodup_singleton _, ?_, ?_, Or.inl ⟨trivial, rfl⟩, ?_, ?_, ?_⟩
    · intro oid hm
      obtain rfl := List.mem_singleton.mp hm
      exact List.mem_map_of_mem Order.id hopool
    · intro oid hm
      obtain rfl := List.mem_singleton.mp hm
      exact single_stops_precedence o
    · intro h
      exact nomatch h
    · intro h
      exact nomatch h
    · intro _ oid hm hroll
      obtain rfl := List.mem_singleton.mp hm
      rw [Bool.not_eq_true'] at hq
      rw [hroll, Bool.true_and] at hq
      exact (qLe_iff _ _).mp (qLe_of_not_qLt _ _ hq)
  constructor
  · intro j hj
    rcases List.mem_append.mp hj with hj | hj
    · rcases List.mem_append.mp hj with hj | hj
      · obtain ⟨t, ht, rfl⟩ := List.mem_map.mp hj
        exact hTriGood t ht
      · obtain ⟨p, hp, rfl⟩ := List.mem_map.mp hj
        exact hPairGood p (hP2.subset hp)
    · obtain ⟨o, ho, rfl⟩ := List.mem_map.mp hj
      exact hSingleGood o ho
  · rw [List.pairwise_append]
    refine ⟨?_, ?_, ?_⟩
    · rw [List.pairwise_append]
      refine ⟨?_, ?_, ?_⟩
      · exact hTdisj.map _ (fun a b h => h)
      · exact (List.Pairwise.sublist hP2 hpairs0disj).map _ (fun a b h => h)
      · intro ja hja jb hjb
        obtain ⟨t, ht, rfl⟩ := List.mem_map.mp hja
        obtain ⟨p, hp, rfl⟩ := List.mem_map.mp hjb
        exact hTP2 t ht p hp
    · have hsubflt : (L2.filter (fun o =>
          !(policy.enable_rolling_horizon
            && qLt (ageLookup ages o.id) policy.max_wait_time_seconds))).Sublist L0 :=
        (List.filter_sublist _).trans hL2
      have hNflt := hL0N.sublist (hsubflt.map Order.id)
      have hpw : (L2.filter (fun o =>
          !(policy.enable_rolling_horizon
            && qLt (ageLookup ages o.id) policy.max_wait_time_seconds))).Pairwise
          (fun a b => a.id ≠ b.id) := List.pairwise_map.mp hNflt
      refine hpw.map _ (fun a b h => ?_)
      intro oid hm
      obtain rfl := List.mem_singleton.mp hm
      intro hc
      exact h (List.mem_singleton.mp hc)
    · intro ja hja js hjs
      obtain ⟨o, ho, rfl⟩ := List.mem_map.mp hjs
      have hoL2 := List.mem_of_mem_filter ho
      rcases List.mem_append.mp hja with hja | hja
      · obtain ⟨t, ht, rfl⟩ := List.mem_map.mp hja
        intro oid hm hc
        obtain rfl := List.mem_singleton.mp hc
        exact hTL2 t ht o hoL2 hm
      · obtain ⟨p, hp, rfl⟩ := List.mem_map.mp hja
        intro oid hm hc
        obtain rfl := List.mem_singleton.mp hc
        exact hL0dj o (hL2.subset hoL2) p (hP2.subset hp) hm

/-- Master soundness of `score_and_select_jobs`: every emitted job is
`JobGood` for the pool, and the emitted jobs have pairwise disjoint
order-id lists. -/
theorem score_select_sound (pool : List Order) (tm : TimeMatrixProvider)
    (policy : BatchingPolicy) (ages : AgesDict) (jobs : List Job)
    (hN : (pool.map Order.id).Nodup)
    (h : score_and_select_jobs pool tm policy ages = some jobs) :
    (∀ j ∈ jobs, JobGood policy ages (pool.map Order.id) j) ∧
    jobs.Pairwise (fun j1 j2 => IdsDisjoint j1.order_ids j2.order_ids) := by
  by_cases hemp : pool.isEmpty = true
  · rw [score_and_select_jobs, if_pos hemp] at h
    obtain rfl := Option.some.inj h
    exact ⟨fun j hj => absurd hj (List.not_mem_nil j), List.Pairwise.nil⟩
  · simp only [score_and_select_jobs, if_neg hemp] at h
    rw [byId_eq pool hN] at h
    cases hbp : build_pair_candidates pool tm policy ages with
    | none =>
        rw [hbp] at h
        simp at h
    | some cands =>
        rw [hbp] at h
        simp only [Option.bind_eq_bind, Option.some_bind] at h
        rw [leftovers_eq pool hN _] at h
        simp only [Option.bind_eq_bind, Option.some_bind] at h
        have hGood : ∀ c ∈ cands, GoodPair policy pool c :=
          build_pair_candidates_sound pool tm policy ages cands hN hbp
        obtain ⟨hsel, hseldisj⟩ :=
          select_disjoint_greedy_sound (GoodPair policy pool) cands hGood
        generalize hpairs0E : select_disjoint_greedy cands = pairs0 at h hsel hseldisj
        generalize hL0E : pool.filter
          (fun o => !(pairs0.flatMap fun x => x.order_ids).contains o.id) = L0 at h
        have hL0pool : ∀ o ∈ L0, o ∈ pool := by
          intro o ho
          rw [← hL0E] at ho
          exact List.mem_of_mem_filter ho
        have hL0dj : ∀ o ∈ L0, ∀ p ∈ pairs0, o.id ∉ p.order_ids := by
          intro o ho p hp hc
          rw [← hL0E] at ho
          have hpred := List.of_mem_filter ho
          rw [Bool.not_eq_true'] at hpred
          exact not_mem_of_contains_false _ _ hpred
            (List.mem_flatMap.mpr ⟨p, hp, hc⟩)
        have hL0N : (L0.map Order.id).Nodup := by
          rw [← hL0E]
          exact hN.sublist ((List.filter_sublist _).map Order.id)
        have hready : ∀ p ∈ pairs0, PairReady L0 p := fun p hp =>
          goodPair_ready policy pool L0 p (hsel p hp)
            (fun add hadd => hL0dj add hadd p hp)
        by_cases hbr : (policy.allow_triples && decide (3 ≤ policy.max_batch_size)
            && !L0.isEmpty) = true
        · rw [if_pos hbr] at h
          simp only [Bool.and_eq_true, decide_eq_true_eq] at hbr
          cases hup : upgrade_pairs_to_triples tm policy ages pairs0 L0 with
          | none =>
              rw [hup] at h
              simp at h
          | some trip =>
              obtain ⟨T, P2, L2⟩ := trip
              rw [hup] at h
              simp only [Option.bind_eq_bind, Option.some_bind, Option.pure_def,
                Option.some.injEq] at h
              obtain ⟨hP2s, hL2s, hTgood, hTdisj, hTP2, hTL2⟩ :=
                upgrade_pairs_to_triples_sound tm policy ages pairs0 L0
                  T P2 L2 hseldisj hready hup
              subst h
              exact jobs_assembly_sound policy ages pool pairs0 L0 T P2 L2
                hsel hseldisj hL0pool hL0dj hL0N hP2s hL2s hTgood hTdisj hTP2
                hTL2 (fun _ => ⟨hbr.1.1, hbr.1.2⟩)
        · rw [if_neg hbr] at h
          simp only [Option.bind_eq_bind, Option.some_bind, Option.pure_def,
            Option.some.injEq] at h
          subst h
          exact jobs_assembly_sound policy ages pool pairs0 L0 [] pairs0 L0
            hsel hseldisj hL0pool hL0dj hL0N (List.Sublist.refl _)
            (List.Sublist.refl _)
            (fun t ht => absurd ht (List.not_mem_nil t)) List.Pairwise.nil
            (fun t ht => absurd ht (List.not_mem_nil t))
            (fun t ht => absurd ht (List.not_mem_nil t))
            (fun hc => absurd rfl hc)

/-! ## Clustering lemmas -/

/-- Flattened order ids of a dict of order lists. -/
def dictIds [DecidableEq κ] : List (κ × List Order) → List String
  | [] => []
  | kv :: rest => kv.2.map Order.id ++ dictIds rest

/-- Flattened order ids of a cluster list. -/
def clustersIds : List Cluster → List String
  | [] => []
  | c :: rest => c.orders.map Order.id ++ clustersIds rest

theorem clustersIds_append :
    ∀ l1 l2 : List Cluster, clustersIds (l1 ++ l2) = clustersIds l1 ++ clustersIds l2 := by
  intro l1 l2
  induction l1 with
  | nil => simp [clustersIds]
  | cons c rest ih => simp [clustersIds, ih]

theorem mem_sublist_clustersIds :
    ∀ (cs : List Cluster), ∀ c ∈ cs, (c.orders.map Order.id).Sublist (clustersIds cs) := by
  intro cs
  induction cs with
  | nil =>
      intro c hc
      cases hc
  | cons c' rest ih =>
      intro c hc
      rcases List.mem_cons.mp hc with rfl | hc
      · exact List.sublist_append_left _ _
      · exact List.Sublist.trans (ih c hc) (List.sublist_append_right _ _)

theorem dictIds_pyAppendAt [DecidableEq κ] (a : String) (k : κ) (o : Order) :
    ∀ m : List (κ × List Order),
    ((dictIds (pyAppendAt m k o)).count a) = ((dictIds m).count a) + ([o.id].count a) := by
  intro m
  induction m with
  | nil => simp [pyAppendAt, dictIds]
  | cons kv rest ih =>
      obtain ⟨k', vs⟩ := kv
      simp only [pyAppendAt]
      by_cases hc : k' = k
      · rw [if_pos hc]
        simp only [dictIds, List.map_append, List.count_append, List.map_cons,
          List.map_nil]
        omega
      · rw [if_neg hc]
        simp only [dictIds, List.count_append, ih]
        omega

theorem dictIds_pyExtendAt [DecidableEq κ] (a : String) (k : κ) (vs : List Order) :
    ∀ m : List (κ × List Order),
    ((dictIds (pyExtendAt m k vs)).count a)
      = ((dictIds m).count a) + ((vs.map Order.id).count a) := by
  intro m
  induction m with
  | nil => simp [pyExtendAt, dictIds]
  | cons kv rest ih =>
      obtain ⟨k', vs'⟩ := kv
      simp only [pyExtendAt]
      by_cases hc : k' = k
      · rw [if_pos hc]
        simp only [dictIds, List.map_append, List.count_append]
        omega
      · rw [if_neg hc]
        simp only [dictIds, List.count_append, ih]
        omega

theorem groupByPickupIdAux_count (a : String) :
    ∀ (os : List Order) (st : List (String × List Order) × List Order),
    ((dictIds (os.foldl
        (fun (st : List (String × List Order) × List Order) o =>
          match o.pickup_id with
          | some pid =>
              if pid.isEmpty then (st.1, st.2 ++ [o])
              else (pyAppendAt st.1 pid o, st.2)
          | none => (st.1, st.2 ++ [o])) st).1).count a)
      + (((os.foldl
        (fun (st : List (String × List Order) × List Order) o =>
          match o.pickup_id with
          | some pid =>
              if pid.isEmpty then (st.1, st.2 ++ [o])
              else (pyAppendAt st.1 pid o, st.2)
          | none => (st.1, st.2 ++ [o])) st).2.map Order.id).count a)
      = ((dictIds st.1).count a) + ((st.2.map Order.id).count a)
        + ((os.map Order.id).count a) := by
  intro os
  induction os with
  | nil =>
      intro st
      simp
  | cons o os ih =>
      intro st
      rw [List.foldl_cons, ih]
      cases hpid : o.pickup_id with
      | none =>
          simp only [hpid, List.map_append, List.count_append, List.map_cons,
            List.count_cons, List.map_nil, List.count_nil]
          omega
      | some pid =>
          simp only [hpid]
          by_cases hp : pid.isEmpty = true
          · rw [if_pos hp]
            simp only [List.map_append, List.count_append, List.map_cons,
              List.count_cons, List.map_nil, List.count_nil]
            omega
          · rw [if_neg hp]
            simp only [dictIds_pyAppendAt, List.map_cons, List.count_cons,
              List.count_nil]
            omega

theorem groupByPickupId_count (a : String) (orders : List Order) :
    ((dictIds (groupByPickupId orders).1).count a)
      + (((groupByPickupId orders).2.map Order.id).count a)
      = ((orders.map Order.id).count a) := by
  rw [groupByPickupId, groupByPickupIdAux_count]
  simp [dictIds]

theorem bucketAux_count (a : String) :
    ∀ (os : List Order) (m : List ((ℚ × ℚ) × List Order)),
    ((dictIds (os.foldl
        (fun m o => pyAppendAt m (pyRoundTo4 o.pickup.1, pyRoundTo4 o.pickup.2) o)
        m)).count a)
      = ((dictIds m).count a) + ((os.map Order.id).count a) := by
  intro os
  induction os with
  | nil =>
      intro m
      simp
  | cons o os ih =>
      intro m
      rw [List.foldl_cons, ih, dictIds_pyAppendAt]
      simp only [List.map_cons, List.count_cons, List.count_nil]
      omega

theorem bucket_count (a : String) (os : List Order) :
    ((dictIds (bucket_by_pickup_coord os)).count a) = ((os.map Order.id).count a) := by
  rw [bucket_by_pickup_coord, bucketAux_count]
  simp [dictIds]

theorem capSort_count (a : String) (l : List Order) (n : ℤ) :
    (((cap_candidates (sortByCreatedAt l) n).map Order.id).count a)
      ≤ ((l.map Order.id).count a) := by
  have hperm : List.Perm ((sortByCreatedAt l).map Order.id) (l.map Order.id) :=
    (pySorted_perm _ _).map Order.id
  rw [cap_candidates]
  by_cases hc : n ≤ 0
  · rw [if_pos hc]
    exact le_of_eq (hperm.count_eq a)
  · rw [if_neg hc]
    refine le_trans ?_ (le_of_eq (hperm.count_eq a))
    exact ((List.take_sublist _ _).map Order.id).count_le a

theorem mapClusters_count [DecidableEq κ] (a : String) (key : κ → ClusterKey) (n : ℤ) :
    ∀ m : List (κ × List Order),
    ((clustersIds (m.map (fun kv =>
        { key := key kv.1,
          orders := cap_candidates (sortByCreatedAt kv.2) n }))).count a)
      ≤ ((dictIds m).count a) := by
  intro m
  induction m with
  | nil => simp [clustersIds, dictIds]
  | cons kv rest ih =>
      simp only [List.map_cons, clustersIds, dictIds, List.count_append]
      have := capSort_count a kv.2 n
      omega

theorem mergeRegroupAux_count (a : String) (parent : List ℕ) :
    ∀ (l : List (ℕ × Cluster)) (m : List (ℕ × List Order)),
    ((dictIds (l.foldl
        (fun m (p : ℕ × Cluster) =>
          pyExtendAt m (findRoot parent parent.length p.1) p.2.orders) m)).count a)
      = ((dictIds m).count a) + ((clustersIds (l.map Prod.snd)).count a) := by
  intro l
  induction l with
  | nil =>
      intro m
      simp [clustersIds]
  | cons p l ih =>
      intro m
      rw [List.foldl_cons, ih, dictIds_pyExtendAt]
      simp only [List.map_cons, clustersIds, List.count_append]
      omega

theorem mergeRegroup_count (a : String) (parent : List ℕ) (cs : List Cluster) :
    ((dictIds (mergeRegroup parent cs)).count a) = ((clustersIds cs).count a) := by
  rw [mergeRegroup, mergeRegroupAux_count, List.enum_map_snd]
  simp [dictIds]

theorem merge_count (a : String) (cs : List Cluster) (ptm : TimeMatrixProvider)
    (t : ℚ) (mc : ℤ) :
    ((clustersIds (merge_near_pickup_clusters cs ptm t mc)).count a)
      ≤ ((clustersIds cs).count a) := by
  simp only [merge_near_pickup_clusters]
  by_cases hlen : cs.length ≤ 1
  · rw [if_pos hlen]
  · rw [if_neg hlen]
    refine le_trans (mapClusters_count a ClusterKey.merge mc _) ?_
    rw [mergeRegroup_count]

theorem build_clusters_count (a : String) (orders : List Order)
    (policy : BatchingPolicy) (ptm : Option TimeMatrixProvider) :
    ((clustersIds (build_clusters orders policy ptm)).count a)
      ≤ ((orders.map Order.id).count a) := by
  simp only [build_clusters]
  by_cases hemp : orders.isEmpty = true
  · rw [if_pos hemp]
    simp [clustersIds]
  · rw [if_neg hemp]
    by_cases hch : policy.enable_continuous_chaining = true
    · rw [if_pos hch]
      simp [clustersIds]
    · rw [if_neg hch]
      have hbase : ((clustersIds
          ((groupByPickupId orders).1.map (fun kv =>
            { key := ClusterKey.pickupId kv.1,
              orders := cap_candidates (sortByCreatedAt kv.2)
                policy.max_cluster_candidates })
          ++ (bucket_by_pickup_coord (groupByPickupId orders).2).map (fun kv =>
            { key := ClusterKey.coord kv.1,
              orders := cap_candidates (sortByCreatedAt kv.2)
                policy.max_cluster_candidates }))).count a)
          ≤ ((orders.map Order.id).count a) := by
        rw [clustersIds_append, List.count_append]
        have h1 := mapClusters_count a ClusterKey.pickupId
          policy.max_cluster_candidates (groupByPickupId orders).1
        have h2 := mapClusters_count a ClusterKey.coord
          policy.max_cluster_candidates (bucket_by_pickup_coord (groupByPickupId orders).2)
        have h3 := bucket_count a (groupByPickupId orders).2
        have h4 := groupByPickupId_count a orders
        omega
      cases ptm with
      | none => exact hbase
      | some p =>
          simp only []
          by_cases ht : qLt 0 policy.near_pickup_time_sec = true
          · rw [if_pos ht]
            exact le_trans (merge_count a _ p policy.near_pickup_time_sec
              policy.max_cluster_candidates) hbase
          · rw [if_neg ht]
            exact hbase

theorem build_clusters_cluster_count (orders : List Order) (policy : BatchingPolicy)
    (ptm : Option TimeMatrixProvider) (c : Cluster)
    (hc : c ∈ build_clusters orders policy ptm) (a : String) :
    ((c.orders.map Order.id).count a) ≤ ((orders.map Order.id).count a) :=
  le_trans ((mem_sublist_clustersIds _ c hc).count_le a)
    (build_clusters_count a orders policy ptm)

theorem build_clusters_nodup (orders : List Order) (policy : BatchingPolicy)
    (ptm : Option TimeMatrixProvider) (hN : (orders.map Order.id).Nodup) :
    ∀ c ∈ build_clusters orders policy ptm, (c.orders.map Order.id).Nodup := by
  intro c hc
  rw [List.nodup_iff_count_le_one]
  intro a
  exact le_trans (build_clusters_cluster_count orders policy ptm c hc a)
    (List.nodup_iff_count_le_one.mp hN a)

theorem build_clusters_mem_ids (orders : List Order) (policy : BatchingPolicy)
    (ptm : Option TimeMatrixProvider) (c : Cluster)
    (hc : c ∈ build_clusters orders policy ptm) (oid : String)
    (ho : oid ∈ c.orders.map Order.id) : oid ∈ orders.map Order.id := by
  have h1 : 0 < (c.orders.map Order.id).count oid := List.count_pos_iff.mpr ho
  exact List.count_pos_iff.mp
    (lt_of_lt_of_le h1 (build_clusters_cluster_count orders policy ptm c hc oid))

/-! ## Engine lemmas -/

theorem JobGood_mono (policy : BatchingPolicy) (ages : AgesDict)
    (ids1 ids2 : List String) (j : Job) (hsub : ∀ oid ∈ ids1, oid ∈ ids2)
    (h : JobGood policy ages ids1 j) : JobGood policy ages ids2 j := by
  obtain ⟨h1, h2, h3, h4, h5, h6, h7⟩ := h
  exact ⟨h1, fun oid ho => hsub oid (h2 oid ho), h3, h4, h5, h6, h7⟩

theorem engineClusterLoop_sound (tm : TimeMatrixProvider) (policy : BatchingPolicy)
    (ages : AgesDict) (ordersIds : List String) :
    ∀ (cs : List Cluster) (jobs : List Job) (used : List String)
      (jobs' : List Job) (used' : List String),
    (∀ c ∈ cs, (c.orders.map Order.id).Nodup ∧
      ∀ oid ∈ c.orders.map Order.id, oid ∈ ordersIds) →
    (∀ j ∈ jobs, JobGood policy ages ordersIds j) →
    jobs.Pairwise (fun j1 j2 => IdsDisjoint j1.order_ids j2.order_ids) →
    (∀ j ∈ jobs, ∀ oid ∈ j.order_ids, oid ∈ used) →
    (∀ oid ∈ used, ∃ j ∈ jobs, oid ∈ j.order_ids) →
    engineClusterLoop tm policy ages cs jobs used = some (jobs', used') →
    (∀ j ∈ jobs', JobGood policy ages ordersIds j) ∧
    jobs'.Pairwise (fun j1 j2 => IdsDisjoint j1.order_ids j2.order_ids) ∧
    (∀ j ∈ jobs', ∀ oid ∈ j.order_ids, oid ∈ used') ∧
    (∀ oid ∈ used', ∃ j ∈ jobs', oid ∈ j.order_ids) := by
  intro cs
  induction cs with
  | nil =>
      intro jobs used jobs' used' _ hJ hP hU1 hU2 h
      rw [engineClusterLoop] at h
      simp only [Option.some.injEq, Prod.mk.injEq] at h
      obtain ⟨h1, h2⟩ := h
      subst h1
      subst h2
      exact ⟨hJ, hP, hU1, hU2⟩
  | cons cluster rest ih =>
      intro jobs used jobs' used' hcs hJ hP hU1 hU2 h
      simp only [engineClusterLoop] at h
      have hcs' : ∀ c ∈ rest, (c.orders.map Order.id).Nodup ∧
          ∀ oid ∈ c.orders.map Order.id, oid ∈ ordersIds :=
        fun c hc => hcs c (List.mem_cons_of_mem _ hc)
      by_cases h1 : cluster.orders.isEmpty = true
      · rw [if_pos h1] at h
        exact ih jobs used jobs' used' hcs' hJ hP hU1 hU2 h
      · rw [if_neg h1] at h
        by_cases h2 : (cluster.orders.filter
            (fun o => !used.contains o.id)).isEmpty = true
        · rw [if_pos h2] at h
          exact ih jobs used jobs' used' hcs' hJ hP hU1 hU2 h
        · rw [if_neg h2] at h
          cases hsc : score_and_select_jobs
              (cluster.orders.filter (fun o => !used.contains o.id)) tm policy ages with
          | none =>
              rw [hsc] at h
              simp at h
          | some cjobs =>
              rw [hsc] at h
              simp only [Option.bind_eq_bind, Option.some_bind] at h
              have hNloc : ((cluster.orders.filter
                  (fun o => !used.contains o.id)).map Order.id).Nodup :=
                (hcs cluster (List.mem_cons_self _ _)).1.sublist
                  ((List.filter_sublist _).map Order.id)
              obtain ⟨hge, hgp⟩ := score_select_sound _ tm policy ages cjobs hNloc hsc
              have hlocsub : ∀ oid ∈ (cluster.orders.filter
                  (fun o => !used.contains o.id)).map Order.id, oid ∈ ordersIds :=
                fun oid ho => (hcs cluster (List.mem_cons_self _ _)).2 oid
                  (((List.filter_sublist _).map Order.id).subset ho)
              have hnew_notused : ∀ j ∈ cjobs, ∀ oid ∈ j.order_ids, oid ∉ used := by
                intro j hj oid ho
                have := (hge j hj).2.1 oid ho
                obtain ⟨o, hof, rfl⟩ := List.mem_map.mp this
                have hpred := List.of_mem_filter hof
                rw [Bool.not_eq_true'] at hpred
                exact not_mem_of_contains_false _ _ hpred
              refine ih (jobs ++ cjobs) (used ++ cjobs.flatMap (·.order_ids))
                jobs' used' hcs' ?_ ?_ ?_ ?_ h
              · intro j hj
                rcases List.mem_append.mp hj with hj | hj
                · exact hJ j hj
                · exact JobGood_mono policy ages _ ordersIds j hlocsub (hge j hj)
              · rw [List.pairwise_append]
                refine ⟨hP, hgp, ?_⟩
                intro j hj j' hj' oid ho hc
                exact hnew_notused j' hj' oid hc (hU1 j hj oid ho)
              · intro j hj oid ho
                rcases List.mem_append.mp hj with hj | hj
                · exact List.mem_append.mpr (Or.inl (hU1 j hj oid ho))
                · exact List.mem_append.mpr
                    (Or.inr (List.mem_flatMap.mpr ⟨j, hj, ho⟩))
              · intro oid ho
                rcases List.mem_append.mp ho with ho | ho
                · obtain ⟨j, hj, hjo⟩ := hU2 oid ho
                  exact ⟨j, List.mem_append.mpr (Or.inl hj), hjo⟩
                · obtain ⟨j, hj, hjo⟩ := List.mem_flatMap.mp ho
                  exact ⟨j, List.mem_append.mpr (Or.inr hj), hjo⟩

/-- Master soundness of `batch_orders`: jobs are `JobGood` for the input
pool, pairwise id-disjoint, and the unbatched orders are exactly the input
orders whose id lands in no job. -/
theorem batch_orders_sound (orders : List Order) (policy : BatchingPolicy)
    (tm : TimeMatrixProvider) (ptm : Option TimeMatrixProvider) (ages : AgesDict)
    (res : BatchResult) (hN : (orders.map Order.id).Nodup)
    (h : batch_orders orders policy tm ptm ages = some res) :
    (∀ j ∈ res.jobs, JobGood policy ages (orders.map Order.id) j) ∧
    res.jobs.Pairwise (fun j1 j2 => IdsDisjoint j1.order_ids j2.order_ids) ∧
    (∀ o ∈ res.unbatched_orders, o ∈ orders) ∧
    (∀ o ∈ res.unbatched_orders, ∀ j ∈ res.jobs, o.id ∉ j.order_ids) ∧
    (∀ o ∈ orders, (∀ j ∈ res.jobs, o.id ∉ j.order_ids) →
      o ∈ res.unbatched_orders) ∧
    (res.unbatched_orders.map Order.id).Nodup := by
  simp only [batch_orders] at h
  by_cases hval : (!policy.validateOk) = true
  · rw [if_pos hval] at h
    simp at h
  · rw [if_neg hval] at h
    by_cases hemp : orders.isEmpty = true
    · rw [if_pos hemp] at h
      obtain rfl := Option.some.inj h
      refine ⟨?_, List.Pairwise.nil, ?_, ?_, ?_, by simp⟩
      · intro j hj
        cases hj
      · intro o ho
        cases ho
      · intro o ho
        cases ho
      · intro o ho
        rw [List.isEmpty_iff] at hemp
        rw [hemp] at ho
        cases ho
    · rw [if_neg hemp] at h
      cases hloop : engineClusterLoop tm policy ages
          (build_clusters orders policy ptm) [] [] with
      | none =>
          rw [hloop] at h
          simp at h
      | some r =>
          obtain ⟨jobsE, usedE⟩ := r
          rw [hloop] at h
          simp only [Option.bind_eq_bind, Option.some_bind] at h
          rw [byId_eq orders hN] at h
          rw [leftovers_eq orders hN _] at h
          simp only [Option.bind_eq_bind, Option.some_bind, Option.pure_def,
            Option.some.injEq] at h
          obtain ⟨hE1, hE2, hE3, hE4⟩ := engineClusterLoop_sound tm policy ages
            (orders.map Order.id) (build_clusters orders policy ptm) [] []
            jobsE usedE
            (fun c hc => ⟨build_clusters_nodup orders policy ptm hN c hc,
              fun oid ho => build_clusters_mem_ids orders policy ptm c hc oid ho⟩)
            (fun j hj => absurd hj (List.not_mem_nil j))
            List.Pairwise.nil
            (fun j hj => absurd hj (List.not_mem_nil j))
            (fun oid ho => absurd ho (List.not_mem_nil oid))
            hloop
          subst h
          refine ⟨hE1, hE2, ?_, ?_, ?_,
            hN.sublist ((List.filter_sublist _).map Order.id)⟩
          · intro o ho
            exact List.mem_of_mem_filter ho
          · intro o ho j hj hc
            have hpred := List.of_mem_filter ho
            rw [Bool.not_eq_true'] at hpred
            exact not_mem_of_contains_false _ _ hpred (hE3 j hj o.id hc)
          · intro o ho hno
            refine List.mem_filter.mpr ⟨ho, ?_⟩
            rw [Bool.not_eq_true']
            by_cases hc : usedE.contains o.id = true
            · exfalso
              have hmem : o.id ∈ usedE := by
                have : usedE.elem o.id = true := hc
                exact List.mem_of_elem_eq_true this
              obtain ⟨j, hj, hjo⟩ := hE4 o.id hmem
              exact hno j hj hjo
            · exact Bool.not_eq_true _ ▸ (Bool.eq_false_iff.mpr hc)

/-! ## Concrete batching fixtures -/

/-- Absolute value on ℚ in the reducible fragment. -/
def qAbs (a : ℚ) : ℚ := if qLe 0 a then a else qSub 0 a

/-- Mock time-matrix provider (Manhattan distance times 10000 seconds per
degree, the `MockOSRM` of `src/tests/test_batching_with_real_osrm.py`). -/
def mockTm : TimeMatrixProvider := fun coords =>
  coords.map fun a => coords.map fun b =>
    qMul (qAdd (qAbs (qSub a.1 b.1)) (qAbs (qSub a.2 b.2))) 10000

/-- Fixture order a. -/
def oA : Order :=
  { id := "a", pickup := (0, 0), dropoff := (mkRat 1 100, 0), created_at := 0 }

/-- Fixture order b, near-parallel to a. -/
def oB : Order :=
  { id := "b", pickup := (0, 0), dropoff := (mkRat 1 100, mkRat 1 1000),
    created_at := 1 }

/-- Fixture order c, near-parallel to a and b. -/
def oC : Order :=
  { id := "c", pickup := (0, 0), dropoff := (mkRat 1 100, mkRat 2 1000),
    created_at := 2 }

/-- Ages 200 s for a and b: both ripe under the default 180 s wait cap. -/
def agesAB : AgesDict := some [("a", 200), ("b", 200)]

/-- Ages 200 s for a, b, c. -/
def agesABC : AgesDict := some [("a", 200), ("b", 200), ("c", 200)]

/-- Age exactly 180 s for a (equal to the default `max_wait_time_seconds`). -/
def agesA180 : AgesDict := some [("a", 180)]

/-- Age 0 s for a (young). -/
def agesA0 : AgesDict := some [("a", 0)]

/-- Result of batching the pair fixture under the default policy. -/
def resAB : BatchResult :=
  match batch_orders [oA, oB] {} mockTm none agesAB with
  | some r => r
  | none => { jobs := [], unbatched_orders := [] }

/-- Result of batching the triple fixture under the default policy. -/
def resABC : BatchResult :=
  match batch_orders [oA, oB, oC] {} mockTm none agesABC with
  | some r => r
  | none => { jobs := [], unbatched_orders := [] }

/-- Result of batching a lone order whose age equals the wait cap. -/
def resA180 : BatchResult :=
  match batch_orders [oA] {} mockTm none agesA180 with
  | some r => r
  | none => { jobs := [], unbatched_orders := [] }

/-- Result of batching a lone young order. -/
def resA0 : BatchResult :=
  match batch_orders [oA] {} mockTm none agesA0 with
  | some r => r
  | none => { jobs := [], unbatched_orders := [] }

/-- Result of batching the pair fixture with `max_batch_size = 1`. -/
def resAB1 : BatchResult :=
  match batch_orders [oA, oB] { max_batch_size := 1 } mockTm none agesAB with
  | some r => r
  | none => { jobs := [], unbatched_orders := [] }

/-! ## Claim theorems: batching (C3-C7) -/

/-- C3: for every job emitted by a successful `batch_orders` run on a pool
with distinct order ids, and for every order id in that job's order-id
list, the order's PICKUP stop occurs before its DROPOFF stop in the job's
stop sequence. -/
theorem batch_orders_precedence (orders : List Order) (policy : BatchingPolicy)
    (tm : TimeMatrixProvider) (ptm : Option TimeMatrixProvider) (ages : AgesDict)
    (res : BatchResult) (hN : (orders.map Order.id).Nodup)
    (h : batch_orders orders policy tm ptm ages = some res) :
    ∀ j ∈ res.jobs, ∀ oid ∈ j.order_ids, PrecedenceOK j.stops oid := by
  intro j hj oid ho
  exact (((batch_orders_sound orders policy tm ptm ages res hN h).1 j hj).2.2.1
    oid ho).1

theorem batch_orders_precedence_witness :
    (([oA, oB].map Order.id).Nodup ∧
      batch_orders [oA, oB] {} mockTm none agesAB = some resAB) ∧
    (∀ j ∈ resAB.jobs, ∀ oid ∈ j.order_ids, PrecedenceOK j.stops oid) :=
  ⟨⟨by decide, rfl⟩,
    batch_orders_precedence [oA, oB] {} mockTm none agesAB resAB (by decide) rfl⟩

/-- C4: for a successful `batch_orders` run on a pool with distinct order
ids, the emitted jobs' order-id lists are pairwise disjoint, and an id is
in the input pool iff it is in some emitted job or among the unbatched
orders; no id is duplicated (each job's ids are distinct, jobs do not
repeat unbatched ids, and the unbatched ids are distinct). -/
theorem batch_orders_partition (orders : List Order) (policy : BatchingPolicy)
    (tm : TimeMatrixProvider) (ptm : Option TimeMatrixProvider) (ages : AgesDict)
    (res : BatchResult) (hN : (orders.map Order.id).Nodup)
    (h : batch_orders orders policy tm ptm ages = some res) :
    res.jobs.Pairwise (fun j1 j2 => IdsDisjoint j1.order_ids j2.order_ids) ∧
    (∀ oid, oid ∈ orders.map Order.id ↔
      ((∃ j ∈ res.jobs, oid ∈ j.order_ids) ∨
        oid ∈ res.unbatched_orders.map Order.id)) ∧
    (∀ j ∈ res.jobs, j.order_ids.Nodup) ∧
    (∀ j ∈ res.jobs, ∀ o ∈ res.unbatched_orders, o.id ∉ j.order_ids) ∧
    (res.unbatched_orders.map Order.id).Nodup := by
  obtain ⟨h1, h2, h3, h4, h5, h6⟩ :=
    batch_orders_sound orders policy tm ptm ages res hN h
  refine ⟨h2, ?_, fun j hj => (h1 j hj).1, fun j hj o ho => h4 o ho j hj, h6⟩
  intro oid
  constructor
  · intro hmem
    obtain ⟨o, ho, rfl⟩ := List.mem_map.mp hmem
    by_cases hjob : ∃ j ∈ res.jobs, o.id ∈ j.order_ids
    · exact Or.inl hjob
    · push_neg at hjob
      exact Or.inr (List.mem_map_of_mem Order.id (h5 o ho hjob))
  · intro hmem
    rcases hmem with ⟨j, hj, hoid⟩ | hmem
    · exact (h1 j hj).2.1 oid hoid
    · obtain ⟨o, ho, rfl⟩ := List.mem_map.mp hmem
      exact List.mem_map_of_mem Order.id (h3 o ho)

set_option maxRecDepth 400000 in
theorem batch_orders_partition_witness :
    (([oA, oB, oC].map Order.id).Nodup ∧
      batch_orders [oA, oB, oC] {} mockTm none agesABC = some resABC) ∧
    (resABC.jobs.Pairwise (fun j1 j2 => IdsDisjoint j1.order_ids j2.order_ids) ∧
      (∀ oid, oid ∈ [oA, oB, oC].map Order.id ↔
        ((∃ j ∈ resABC.jobs, oid ∈ j.order_ids) ∨
          oid ∈ resABC.unbatched_orders.map Order.id)) ∧
      (∀ j ∈ resABC.jobs, j.order_ids.Nodup) ∧
      (∀ j ∈ resABC.jobs, ∀ o ∈ resABC.unbatched_orders, o.id ∉ j.order_ids) ∧
      (resABC.unbatched_orders.map Order.id).Nodup) :=
  ⟨⟨by decide, rfl⟩,
    batch_orders_partition [oA, oB, oC] {} mockTm none agesABC resABC
      (by decide) rfl⟩

/-- C5: every job emitted by a successful `batch_orders` run on a pool
with distinct order ids satisfies the detour caps: a job with exactly two
orders has a recorded detour factor at most `pair_detour_cap`, and a job
with three or more orders has one at most `multi_detour_cap` (the factors
are computed by the code as batch route time over the sum of the members'
best individual times). -/
theorem batch_orders_detour_caps (orders : List Order) (policy : BatchingPolicy)
    (tm : TimeMatrixProvider) (ptm : Option TimeMatrixProvider) (ages : AgesDict)
    (res : BatchResult) (hN : (orders.map Order.id).Nodup)
    (h : batch_orders orders policy tm ptm ages = some res) :
    ∀ j ∈ res.jobs,
      (j.order_ids.length = 2 →
        ∃ q, j.detour_factor = some q ∧ q ≤ policy.pair_detour_cap) ∧
      (3 ≤ j.order_ids.length →
        ∃ q, j.detour_factor = some q ∧ q ≤ policy.multi_detour_cap) := by
  intro j hj
  obtain ⟨-, -, -, h4, h5, h6, -⟩ :=
    (batch_orders_sound orders policy tm ptm ages res hN h).1 j hj
  constructor
  · intro hlen
    rcases h4 with ⟨ht, hl⟩ | ⟨ht, hl⟩ | ⟨ht, hl⟩
    · omega
    · exact h5 ht
    · omega
  · intro hlen
    rcases h4 with ⟨ht, hl⟩ | ⟨ht, hl⟩ | ⟨ht, hl⟩
    · omega
    · omega
    · exact (h6 ht).1

set_option maxRecDepth 400000 in
theorem batch_orders_detour_caps_witness :
    (([oA, oB, oC].map Order.id).Nodup ∧
      batch_orders [oA, oB, oC] {} mockTm none agesABC = some resABC) ∧
    (∀ j ∈ resABC.jobs,
      (j.order_ids.length = 2 →
        ∃ q, j.detour_factor = some q ∧
          q ≤ ({} : BatchingPolicy).pair_detour_cap) ∧
      (3 ≤ j.order_ids.length →
        ∃ q, j.detour_factor = some q ∧
          q ≤ ({} : BatchingPolicy).multi_detour_cap)) :=
  ⟨⟨by decide, rfl⟩,
    batch_orders_detour_caps [oA, oB, oC] {} mockTm none agesABC resABC
      (by decide) rfl⟩

/-- C6 counterexample: `max_batch_size = 1` passes policy validation, yet
`batch_orders` on two pairable orders emits a BATCH_2 job with two order
ids, violating the claimed bound for max_batch_size = 1. -/
theorem batch_orders_size_cap_counterexample :
    ({ max_batch_size := 1 } : BatchingPolicy).validateOk = true ∧
    ({ max_batch_size := 1 } : BatchingPolicy).max_batch_size = 1 ∧
    batch_orders [oA, oB] { max_batch_size := 1 } mockTm none agesAB
      = some resAB1 ∧
    resAB1.jobs.map (fun j => (j.job_type, j.order_ids.length))
      = [(JobType.BATCH_2, 2)] :=
  ⟨rfl, rfl, rfl, rfl⟩

/-- C6 (amended): for a successful `batch_orders` run on a pool with
distinct order ids and a policy with `max_batch_size ≥ 2`, every emitted
job has at most `max_batch_size` orders.  (Pair selection never consults
`max_batch_size`, so the bound fails for `max_batch_size = 1`; only the
triple upgrade checks `3 ≤ max_batch_size`.) -/
theorem batch_orders_size_cap (orders : List Order) (policy : BatchingPolicy)
    (tm : TimeMatrixProvider) (ptm : Option TimeMatrixProvider) (ages : AgesDict)
    (res : BatchResult) (hN : (orders.map Order.id).Nodup)
    (h : batch_orders orders policy tm ptm ages = some res)
    (hmb : 2 ≤ policy.max_batch_size) :
    ∀ j ∈ res.jobs, (j.order_ids.length : ℤ) ≤ policy.max_batch_size := by
  intro j hj
  obtain ⟨-, -, -, h4, -, h6, -⟩ :=
    (batch_orders_sound orders policy tm ptm ages res hN h).1 j hj
  rcases h4 with ⟨ht, hl⟩ | ⟨ht, hl⟩ | ⟨ht, hl⟩
  · rw [hl]
    omega
  · rw [hl]
    omega
  · have h3m := (h6 ht).2.2
    rw [hl]
    omega

theorem batch_orders_size_cap_witness :
    (([oA, oB].map Order.id).Nodup ∧
      batch_orders [oA, oB] {} mockTm none agesAB = some resAB ∧
      2 ≤ ({} : BatchingPolicy).max_batch_size) ∧
    (∀ j ∈ resAB.jobs,
      (j.order_ids.length : ℤ) ≤ ({} : BatchingPolicy).max_batch_size) :=
  ⟨⟨by decide, rfl, by decide⟩,
    batch_orders_size_cap [oA, oB] {} mockTm none agesAB resAB (by decide) rfl
      (by decide)⟩

/-- C7 counterexample: with rolling horizon enabled and an order whose age
equals `max_wait_time_seconds` (so age ≤ cap), `batch_orders` still emits
the order as a SINGLE job — the code defers only on strict `<`. -/
theorem rolling_horizon_counterexample :
    ({} : BatchingPolicy).enable_rolling_horizon = true ∧
    qLe (ageLookup agesA180 "a") ({} : BatchingPolicy).max_wait_time_seconds
      = true ∧
    batch_orders [oA] {} mockTm none agesA180 = some resA180 ∧
    resA180.jobs.map (fun j => (j.job_type, j.order_ids))
      = [(JobType.SINGLE, ["a"])] :=
  ⟨rfl, rfl, rfl, rfl⟩

/-- C7 (amended): when `enable_rolling_horizon` is set, every order id in
a SINGLE job emitted by a successful `batch_orders` run has age at least
`max_wait_time_seconds` (so an order strictly younger than the cap never
appears as a SINGLE job; age exactly equal to the cap is emitted, per the
counterexample); and every input order contained in no emitted job is
returned among the unbatched orders. -/
theorem batch_orders_rolling_horizon (orders : List Order)
    (policy : BatchingPolicy) (tm : TimeMatrixProvider)
    (ptm : Option TimeMatrixProvider) (ages : AgesDict)
    (res : BatchResult) (hN : (orders.map Order.id).Nodup)
    (h : batch_orders orders policy tm ptm ages = some res) :
    (∀ j ∈ res.jobs, j.job_type = JobType.SINGLE →
      ∀ oid ∈ j.order_ids, policy.enable_rolling_horizon = true →
        policy.max_wait_time_seconds ≤ ageLookup ages oid) ∧
    (∀ o ∈ orders, (∀ j ∈ res.jobs, o.id ∉ j.order_ids) →
      o ∈ res.unbatched_orders) := by
  obtain ⟨h1, -, -, -, h5, -⟩ :=
    batch_orders_sound orders policy tm ptm ages res hN h
  exact ⟨fun j hj => (h1 j hj).2.2.2.2.2.2, h5⟩

theorem batch_orders_rolling_horizon_witness :
    (([oA].map Order.id).Nodup ∧
      batch_orders [oA] {} mockTm none agesA0 = some resA0) ∧
    ((∀ j ∈ resA0.jobs, j.job_type = JobType.SINGLE →
        ∀ oid ∈ j.order_ids,
          ({} : BatchingPolicy).enable_rolling_horizon = true →
          ({} : BatchingPolicy).max_wait_time_seconds ≤ ageLookup agesA0 oid) ∧
      (∀ o ∈ [oA], (∀ j ∈ resA0.jobs, o.id ∉ j.order_ids) →
        o ∈ resA0.unbatched_orders)) :=
  ⟨⟨by decide, rfl⟩,
    batch_orders_rolling_horizon [oA] {} mockTm none agesA0 resA0 (by decide) rfl⟩
